import Mathlib

/-!
Verification development for the wireguard-tools IPC layer (`src/ipc.c`).

The C code is shallowly embedded: the device/peer/allowed-ip records become
Lean structures, the linked "owns next" chains become Lean lists, and each
decoding / encoding routine becomes an executable Lean function that follows
the corresponding C function line by line.  External collaborators that are
out of scope for this layer (hex key codecs, `getaddrinfo`, `inet_pton`,
curve25519) are passed in as oracle parameters, exactly as the spec treats
them as pre-existing utility capabilities.
-/

namespace WgIpc

/-- Address families, numeric values as on Linux (`AF_INET = 2`, `AF_INET6 = 10`,
`AF_UNSPEC = 0`). -/
def AF_UNSPEC : Nat := 0

def AF_INET : Nat := 2

def AF_INET6 : Nat := 10

/-- Error codes used by `ipc.c` (Linux numeric values; only their nonzero-ness
matters to the theorems). -/
def EPROTO : Int := 71

def EINVAL : Int := 22

def ENETUNREACH : Int := 101

/-- Keys are 32-byte arrays (`wg_key`); modelled as byte lists. -/
abbrev Key32 := List Nat

/-- `key_is_zero` from the key utilities: true iff every byte is zero. -/
def key_is_zero (k : Key32) : Bool := k.all (· = 0)

/-- Endpoint: tagged union over `{absent, sockaddr_in, sockaddr_in6}`
(`peer->endpoint` in C; the tag is `sa_family`). -/
inductive EndpointU where
  | none
  | v4 (bytes : List Nat)
  | v6 (bytes : List Nat)
  deriving DecidableEq, Repr

/-- One `struct wgallowedip`.  A fresh record is `calloc`ed, so every field
starts zeroed (`family = AF_UNSPEC`).  The `cidr` field width is not visible
in `src/` (it lives in `containers.h`); following the spec's data model
(`cidr`: prefix length) it is modelled as an unbounded natural. -/
structure WgAllowedIP where
  family : Nat := AF_UNSPEC
  ip4 : List Nat := []
  ip6 : List Nat := []
  cidr : Nat := 0
  deriving DecidableEq, Repr

/-- Flags of `struct wgpeer`, modelled as named booleans. -/
structure WgPeerFlags where
  hasPublicKey : Bool := false
  hasPresharedKey : Bool := false
  hasKeepalive : Bool := false
  replaceAllowedIPs : Bool := false
  removeMe : Bool := false
  deriving DecidableEq, Repr

/-- One `struct wgpeer`; the `first_allowedip/next_allowedip` chain becomes
the `allowedips` list (appends in C append here). -/
structure WgPeer where
  flags : WgPeerFlags := {}
  public_key : Key32 := List.replicate 32 0
  preshared_key : Key32 := List.replicate 32 0
  endpoint : EndpointU := .none
  persistent_keepalive_interval : Nat := 0
  last_handshake_time_sec : Nat := 0
  last_handshake_time_nsec : Nat := 0
  rx_bytes : Nat := 0
  tx_bytes : Nat := 0
  allowedips : List WgAllowedIP := []
  deriving DecidableEq, Repr

/-- Flags of `struct wgdevice`. -/
structure WgDeviceFlags where
  hasPrivateKey : Bool := false
  hasPublicKey : Bool := false
  hasListenPort : Bool := false
  hasFwmark : Bool := false
  replacePeers : Bool := false
  deriving DecidableEq, Repr

/-- One `struct wgdevice`; the `first_peer/next_peer` chain becomes `peers`. -/
structure WgDevice where
  name : List Char := []
  ifindex : Nat := 0
  flags : WgDeviceFlags := {}
  private_key : Key32 := List.replicate 32 0
  public_key : Key32 := List.replicate 32 0
  listen_port : Nat := 0
  fwmark : Nat := 0
  peers : List WgPeer := []
  deriving DecidableEq, Repr

/-! ## `coalesce_peers` (ipc.c lines 860-880)

The C loop walks the peer chain; whenever `peer` and `peer->next_peer` carry
the same public key it splices the next peer's allowed-ip chain onto the end
of `peer`'s chain, unlinks and frees the next peer, and stays on `peer` (so a
whole run of equal keys folds into its first element). -/

/-- The walk of `coalesce_peers`, with `p` playing the role of the `peer`
cursor: while the next record carries the same public key, splice its
allowed-ip chain onto `p` and free it, staying on `p`; otherwise emit `p`
and move on. -/
def coalesceAux (p : WgPeer) : List WgPeer → List WgPeer
  | [] => [p]
  | q :: rest =>
    if p.public_key = q.public_key then
      coalesceAux { p with allowedips := p.allowedips ++ q.allowedips } rest
    else
      p :: coalesceAux q rest

def coalesce_peers : List WgPeer → List WgPeer
  | [] => []
  | p :: rest => coalesceAux p rest

/-- The coalescing pass as the spec words it: group each maximal run of
adjacent peers sharing a public key, keep the first record of the run, and
append the later records' allowed-ip sequences (in order) onto it. -/
def coalesceSpec : List WgPeer → List WgPeer
  | [] => []
  | p :: rest =>
    { p with allowedips := p.allowedips ++
        (rest.takeWhile (fun q => q.public_key = p.public_key)).flatMap (·.allowedips) } ::
      coalesceSpec (rest.dropWhile (fun q => q.public_key = p.public_key))
termination_by l => l.length
decreasing_by
  simp only [List.length_cons]
  exact Nat.lt_succ_of_le (List.dropWhile_sublist _).length_le

theorem coalesceAux_eq_spec :
    ∀ (rest : List WgPeer) (p : WgPeer), coalesceAux p rest = coalesceSpec (p :: rest) := by
  intro rest
  induction rest with
  | nil =>
    intro p
    rw [coalesceAux]
    simp [coalesceSpec]
  | cons q rest' ih =>
    intro p
    rw [coalesceAux]
    by_cases h : p.public_key = q.public_key
    · rw [if_pos h, ih]
      rw [coalesceSpec]
      conv_rhs => rw [coalesceSpec]
      congr 1
      · simp [List.takeWhile_cons, h.symm, List.append_assoc]
      · simp [List.dropWhile_cons, h.symm]
    · rw [if_neg h, ih]
      conv_rhs => rw [coalesceSpec]
      have hq : ¬ q.public_key = p.public_key := fun e => h e.symm
      simp [List.takeWhile_cons, List.dropWhile_cons, hq]

theorem coalesce_peers_eq_spec (l : List WgPeer) : coalesce_peers l = coalesceSpec l := by
  cases l with
  | nil => simp [coalesce_peers, coalesceSpec]
  | cons p rest => exact coalesceAux_eq_spec rest p

theorem dropWhile_head_not {α : Type} (p : α → Bool) :
    ∀ (l : List α) (d : α) (ds : List α), l.dropWhile p = d :: ds → p d = false := by
  intro l
  induction l with
  | nil => intro d ds h; exact List.noConfusion h
  | cons c cs ih =>
    intro d ds h
    rw [List.dropWhile_cons] at h
    split at h
    · exact ih d ds h
    · next hc =>
      injection h with h1 _
      subst h1
      simp only [Bool.not_eq_true] at hc
      exact hc

theorem coalesceSpec_chain' (l : List WgPeer) :
    (coalesceSpec l).Chain' (fun p q => p.public_key ≠ q.public_key) := by
  induction l using coalesceSpec.induct with
  | case1 => rw [coalesceSpec]; simp
  | case2 p rest ih =>
    rw [coalesceSpec]
    rcases hd : coalesceSpec (rest.dropWhile fun q => q.public_key = p.public_key)
      with _ | ⟨r, rs⟩
    · simp
    · refine List.Chain'.cons ?_ (hd ▸ ih)
      cases hdw : rest.dropWhile (fun q => q.public_key = p.public_key) with
      | nil =>
        rw [hdw] at hd
        rw [coalesceSpec] at hd
        exact List.noConfusion hd
      | cons d ds =>
        rw [hdw] at hd
        rw [coalesceSpec] at hd
        injection hd with h1 _
        have hr : r.public_key = d.public_key := by rw [← h1]
        have hdp := dropWhile_head_not (fun q => q.public_key = p.public_key) rest d ds hdw
        simp only [decide_eq_false_iff_not] at hdp
        rw [hr]
        exact fun e => hdp e.symm

theorem coalesce_peers_chain' (l : List WgPeer) :
    (coalesce_peers l).Chain' (fun p q => p.public_key ≠ q.public_key) := by
  rw [coalesce_peers_eq_spec]
  exact coalesceSpec_chain' l

/-- Identity on lists whose adjacent peers already have distinct keys. -/
theorem coalesce_peers_id_of_chain' (l : List WgPeer)
    (h : l.Chain' (fun p q => p.public_key ≠ q.public_key)) : coalesce_peers l = l := by
  cases l with
  | nil => rfl
  | cons p rest =>
    rw [coalesce_peers]
    induction rest generalizing p with
    | nil => rfl
    | cons q rest' ih =>
      obtain ⟨hpq, hch⟩ := List.chain'_cons.mp h
      rw [coalesceAux, if_neg hpq, ih q hch]

/-! ## Userspace text protocol client (`userspace_get_device`, ipc.c lines 273-431)

The GET decoder reads the socket stream with `getline`, so the model takes the
raw character stream and splits it at newlines exactly as `getline` does.
External utility calls (`key_from_hex`, `curve25519_generate_public`,
`inet_pton`, `getaddrinfo`) are oracle parameters. -/

/-- Result of the `getaddrinfo` oracle: failure, an IPv4 socket address of the
right size, an IPv6 one, or a resolution with any other family/size (which
ipc.c discards with `break`). -/
inductive GaiRes where
  | fail
  | ok4 (bytes : List Nat)
  | ok6 (bytes : List Nat)
  | other
  deriving DecidableEq, Repr

/-- Oracles for the external utility capabilities used by the decoder. -/
structure Ext where
  keyFromHex : List Char → Option Key32
  genPublic : Key32 → Key32
  pton4 : List Char → Option (List Nat)
  pton6 : List Char → Option (List Nat)
  gai : List Char → List Char → GaiRes

/-- `ULLONG_MAX` on the LP64 targets ipc.c builds for. -/
def ULLONG_MAX : Nat := 2 ^ 64 - 1

/-- Value of a decimal digit string. -/
def decDigits (s : List Char) : Nat := s.foldl (fun a c => a * 10 + (c.toNat - 48)) 0

/-- `strtoull(value, &end, 10)` where `value` starts with a digit: consumes the
maximal digit prefix and, per the C standard, returns `ULLONG_MAX` when the
value is out of range (ipc.c never checks `errno`, so the saturation is
observable).  Returns the parsed number and the unconsumed suffix (`end`). -/
def strtoull10 (s : List Char) : Nat × List Char :=
  (min (decDigits (s.takeWhile Char.isDigit)) ULLONG_MAX, s.dropWhile Char.isDigit)

/-- The `NUM(max)` macro (ipc.c lines 262-271): reject unless the first byte
is a digit, parse with `strtoull`, reject unless the whole value was consumed
and the result is `≤ max`.  `none` models the macro's `break`. -/
def NUMparse (max : Nat) (value : List Char) : Option Nat :=
  match value with
  | [] => none
  | c :: _ =>
    if ¬ c.isDigit then none
    else
      let r := strtoull10 value
      if r.2 ≠ [] ∨ r.1 > max then none else some r.1

/-- Split a list at the first occurrence of `ch` (`strchr`); `none` if absent. -/
def splitAtChar (ch : Char) : List Char → Option (List Char × List Char)
  | [] => none
  | c :: rest =>
    if c = ch then some ([], rest)
    else (splitAtChar ch rest).map (fun r => (c :: r.1, r.2))

/-- Split a list at the last occurrence of `ch` (`strrchr`); `none` if absent. -/
def splitAtLastChar (ch : Char) (l : List Char) : Option (List Char × List Char) :=
  (splitAtChar ch l.reverse).map (fun r => (r.2.reverse, r.1.reverse))

/-- Decoder state of `userspace_get_device`: the partially built device, the
completed peers (`dev->first_peer...` chain minus the one `peer` points at),
the current peer, the C `ret` variable, and an allocation counter
instrumenting every `calloc` of a record (for the leak-freedom claim). -/
structure UState where
  dev : WgDevice
  donePeers : List WgPeer := []
  cur : Option WgPeer := none
  ret : Int := -EPROTO
  allocs : Nat := 1

/-- Outcome of processing one line: continue the loop, `break` out of it, or
`goto err` (the blank-line exit and the `getaddrinfo` failure exit). -/
inductive UStep where
  | cont (st : UState)
  | brk (st : UState)
  | gotoErr (st : UState)

/-- The state carried by a step outcome. -/
def UStep.state : UStep → UState
  | .cont st => st
  | .brk st => st
  | .gotoErr st => st

theorem UStep.state_ite {c : Prop} [Decidable c] (a b : UStep) :
    (ite c a b).state = ite c a.state b.state := by
  split <;> rfl

/-- The `private_key=` branch body (device scope). -/
def kvPrivateKey (ext : Ext) (st : UState) (value : List Char) : UStep :=
  match ext.keyFromHex value with
  | none => .brk st
  | some k =>
    .cont { st with dev := { st.dev with
      private_key := k
      public_key := ext.genPublic k
      flags := { st.dev.flags with hasPrivateKey := true, hasPublicKey := true } } }

/-- The `listen_port=` branch body (device scope). -/
def kvListenPort (st : UState) (value : List Char) : UStep :=
  match NUMparse 0xffff value with
  | none => .brk st
  | some n =>
    .cont { st with dev := { st.dev with
      listen_port := n
      flags := { st.dev.flags with hasListenPort := true } } }

/-- The `fwmark=` branch body (device scope). -/
def kvFwmark (st : UState) (value : List Char) : UStep :=
  match NUMparse 0xffffffff value with
  | none => .brk st
  | some n =>
    .cont { st with dev := { st.dev with
      fwmark := n
      flags := { st.dev.flags with hasFwmark := true } } }

/-- The `public_key=` branch body: the new peer is `calloc`ed and linked into
the chain before the hex parse, so on a parse failure the fresh record is
already owned by the device. -/
def kvPublicKey (ext : Ext) (st : UState) (value : List Char) : UStep :=
  let st' : UState := { st with
    donePeers := st.donePeers ++ st.cur.toList
    cur := some {}
    allocs := st.allocs + 1 }
  match ext.keyFromHex value with
  | none => .brk st'
  | some k =>
    .cont { st' with cur := some { ({} : WgPeer) with
      public_key := k
      flags := { ({} : WgPeerFlags) with hasPublicKey := true } } }

/-- The `errno=` branch body: records the peer's reported error in `ret`. -/
def kvErrno (st : UState) (value : List Char) : UStep :=
  match NUMparse 0x7fffffff value with
  | none => .brk st
  | some n => .cont { st with ret := -(n : Int) }

/-- The `preshared_key=` branch body (peer scope): the presence flag is set
only when the decoded key is not all-zero. -/
def kvPresharedKey (ext : Ext) (st : UState) (p : WgPeer) (value : List Char) : UStep :=
  match ext.keyFromHex value with
  | none => .brk st
  | some k =>
    .cont { st with cur := some { p with
      preshared_key := k
      flags := { p.flags with
        hasPresharedKey := p.flags.hasPresharedKey || ! key_is_zero k } } }

/-- Shared tail of the `endpoint=` branch: resolve host and port. -/
def kvEndpointResolve (ext : Ext) (st : UState) (p : WgPeer)
    (host port : List Char) : UStep :=
  match ext.gai host port with
  | .fail => .gotoErr { st with ret := ENETUNREACH }
  | .ok4 b => .cont { st with cur := some { p with endpoint := .v4 b } }
  | .ok6 b => .cont { st with cur := some { p with endpoint := .v6 b } }
  | .other => .brk st

/-- The `endpoint=` branch body (peer scope): `[v6host]:port` or the split at
the last `:`; empty host strings are passed to resolution as-is. -/
def kvEndpoint (ext : Ext) (st : UState) (p : WgPeer) (value : List Char) : UStep :=
  if value = [] then .brk st
  else if value.head? = some '[' then
    match splitAtChar ']' value.tail with
    | none => .brk st
    | some hp =>
      match hp.2 with
      | ':' :: port =>
        if port = [] then .brk st
        else kvEndpointResolve ext st p hp.1 port
      | _ => .brk st
  else
    match splitAtLastChar ':' value with
    | none => .brk st
    | some hp =>
      if hp.2 = [] then .brk st
      else kvEndpointResolve ext st p hp.1 hp.2

/-- The `persistent_keepalive_interval=` branch body (peer scope). -/
def kvKeepalive (st : UState) (p : WgPeer) (value : List Char) : UStep :=
  match NUMparse 0xffff value with
  | none => .brk st
  | some n =>
    .cont { st with cur := some { p with
      persistent_keepalive_interval := n
      flags := { p.flags with hasKeepalive := true } } }

/-- The `allowed_ip=` branch body (peer scope): split `address/cidr` at the
first `/`, require a digit to start the mask, `calloc` and link the record,
fill family/address/cidr, then `break` unless the family is known and the
cidr is within the family bound.  The record is linked before the validity
test, so an invalid record stays in the owned chain. -/
def kvAllowedIP (ext : Ext) (st : UState) (p : WgPeer) (value : List Char) : UStep :=
  match splitAtChar '/' value with
  | none => .brk st
  | some im =>
    match im.2 with
    | [] => .brk st
    | m0 :: _ =>
      if ¬ m0.isDigit then .brk st
      else
        let fam : Nat × List Nat × List Nat :=
          if im.1.contains ':' then
            match ext.pton6 im.1 with
            | some b => (AF_INET6, [], b)
            | none => (AF_UNSPEC, [], [])
          else
            match ext.pton4 im.1 with
            | some b => (AF_INET, b, [])
            | none => (AF_UNSPEC, [], [])
        let aip : WgAllowedIP :=
          { family := fam.1, ip4 := fam.2.1, ip6 := fam.2.2, cidr := (strtoull10 im.2).1 }
        let st' : UState := { st with
          cur := some { p with allowedips := p.allowedips ++ [aip] }
          allocs := st.allocs + 1 }
        if (strtoull10 im.2).2 ≠ [] ∨ aip.family = AF_UNSPEC ∨
            (aip.family = AF_INET6 ∧ aip.cidr > 128) ∨
            (aip.family = AF_INET ∧ aip.cidr > 32) then
          .brk st'
        else
          .cont st'

/-- The `last_handshake_time_sec=` branch body (peer scope). -/
def kvHsSec (st : UState) (p : WgPeer) (value : List Char) : UStep :=
  match NUMparse 0x7fffffffffffffff value with
  | none => .brk st
  | some n => .cont { st with cur := some { p with last_handshake_time_sec := n } }

/-- The `last_handshake_time_nsec=` branch body (peer scope). -/
def kvHsNsec (st : UState) (p : WgPeer) (value : List Char) : UStep :=
  match NUMparse 0x7fffffffffffffff value with
  | none => .brk st
  | some n => .cont { st with cur := some { p with last_handshake_time_nsec := n } }

/-- The `rx_bytes=` branch body (peer scope). -/
def kvRxBytes (st : UState) (p : WgPeer) (value : List Char) : UStep :=
  match NUMparse 0xffffffffffffffff value with
  | none => .brk st
  | some n => .cont { st with cur := some { p with rx_bytes := n } }

/-- The `tx_bytes=` branch body (peer scope). -/
def kvTxBytes (st : UState) (p : WgPeer) (value : List Char) : UStep :=
  match NUMparse 0xffffffffffffffff value with
  | none => .brk st
  | some n => .cont { st with cur := some { p with tx_bytes := n } }

/-- The `key=value` dispatch chain of `userspace_get_device`
(ipc.c lines 310-418), one C `else if` per branch, in source order: the three
device-scoped keys are accepted only while no peer exists, `public_key`
starts a new peer, peer-scoped keys need a current peer, `errno` is accepted
in either scope, and anything else falls off the chain and is ignored. -/
def processKV (ext : Ext) (st : UState) (key value : List Char) : UStep :=
  if st.cur = none ∧ key = "private_key".toList then kvPrivateKey ext st value
  else if st.cur = none ∧ key = "listen_port".toList then kvListenPort st value
  else if st.cur = none ∧ key = "fwmark".toList then kvFwmark st value
  else if key = "public_key".toList then kvPublicKey ext st value
  else
    match st.cur with
    | none =>
      if key = "errno".toList then kvErrno st value
      else .cont st
    | some p =>
      if key = "preshared_key".toList then kvPresharedKey ext st p value
      else if key = "endpoint".toList then kvEndpoint ext st p value
      else if key = "persistent_keepalive_interval".toList then kvKeepalive st p value
      else if key = "allowed_ip".toList then kvAllowedIP ext st p value
      else if key = "last_handshake_time_sec".toList then kvHsSec st p value
      else if key = "last_handshake_time_nsec".toList then kvHsNsec st p value
      else if key = "rx_bytes".toList then kvRxBytes st p value
      else if key = "tx_bytes".toList then kvTxBytes st p value
      else if key = "errno".toList then kvErrno st value
      else .cont st

/-- Process one `getline` result (ipc.c lines 301-308 plus the dispatch): a
lone newline exits through `goto err` with the current `ret`; a line without
`=` or without a trailing newline `break`s; otherwise the line is split into
key and value (dropping the newline) and dispatched. -/
def uProcessLine (ext : Ext) (st : UState) (line : List Char) : UStep :=
  if line = ['\n'] then .gotoErr st
  else
    match splitAtChar '=' line with
    | none => .brk st
    | some kv =>
      if kv.2.getLast? ≠ some '\n' then .brk st
      else processKV ext st kv.1 kv.2.dropLast

/-- The `while (getline(...) > 0)` loop, with `getline` fused in: `acc`
holds the characters of the current line read so far (never containing a
newline).  A newline completes the line `acc ++ ['\n']` and dispatches it;
end of stream first delivers the partial final line, if any, exactly as
`getline` does, and then the loop ends.  Ending the loop — by end of stream
or by `break` — falls through to the unconditional `ret = -EPROTO;`
(ipc.c line 420); only the `goto err` exits keep the current `ret`. -/
def uLoopAcc (ext : Ext) : UState → List Char → List Char → UState × Int
  | st, acc, [] =>
    (match acc with
     | [] => (st, -EPROTO)
     | _ :: _ =>
       match uProcessLine ext st acc with
       | .cont st' => (st', -EPROTO)
       | .brk st' => (st', -EPROTO)
       | .gotoErr st' => (st', st'.ret))
  | st, acc, c :: rest =>
    if c = '\n' then
      match uProcessLine ext st (acc ++ ['\n']) with
      | .cont st' => uLoopAcc ext st' [] rest
      | .brk st' => (st', -EPROTO)
      | .gotoErr st' => (st', st'.ret)
    else uLoopAcc ext st (acc ++ [c]) rest

/-- The getline loop over a whole response stream. -/
def uLoop (ext : Ext) (st : UState) (stream : List Char) : UState × Int :=
  uLoopAcc ext st [] stream

/-- Reassemble the linked peer chain as seen from `dev->first_peer`. -/
def UState.finalDev (st : UState) : WgDevice :=
  { st.dev with peers := st.donePeers ++ st.cur.toList }

/-- Result of a GET: on success the device; on failure the error code, the
record tree that `free_wgdevice` releases at `err:`, and the number of records
allocated during the decode (out-parameter semantics: the caller sees the
device only in the `ok` case, mirroring `*out = NULL` on error). -/
inductive URes where
  | ok (dev : WgDevice) (allocs : Nat)
  | err (code : Int) (freed : WgDevice) (allocs : Nat)
  deriving Repr, DecidableEq

/-- Error code of a GET result (`0` on success). -/
def URes.code : URes → Int
  | .ok _ _ => 0
  | .err c _ _ => c

/-- Caller-visible device (`*out`): `none` whenever the call failed. -/
def URes.out : URes → Option WgDevice
  | .ok d _ => some d
  | .err _ _ _ => none

/-- `userspace_get_device` over a response stream: allocate the device
(1 record), run the getline loop, and on nonzero `ret` free everything and
null the out-parameter. -/
def userspace_get_device (ext : Ext) (iface : List Char) (stream : List Char) : URes :=
  let st0 : UState := { dev := { name := iface.take 15 } }
  let r := uLoop ext st0 stream
  if r.2 ≠ 0 then .err r.2 r.1.finalDev r.1.allocs else .ok r.1.finalDev r.1.allocs

/-- Number of heap records a device tree owns (the device itself, each peer,
each allowed-ip) — what `free_wgdevice` releases. -/
def WgDevice.treeSize (d : WgDevice) : Nat :=
  1 + d.peers.length + (d.peers.map (fun p => p.allowedips.length)).sum

/-! ## Linux netlink GET client (`kernel_get_device` and its parse callbacks,
ipc.c lines 682-925)

Netlink attributes are modelled as typed byte payloads or nests of further
attributes.  `mnl_attr_validate(MNL_TYPE_U8/U16/U32/U64)` requires the exact
payload length; `mnl_attr_get_uN` decodes host-order (little-endian) bytes.
The libmnl callback protocol uses `MNL_CB_ERROR = -1`, `MNL_CB_STOP = 0`,
`MNL_CB_OK = 1`; `mnl_attr_parse`/`mnl_attr_parse_nested` run the callback
over each attribute and stop as soon as it returns `≤ MNL_CB_STOP`,
propagating that value. -/

inductive NlAttr where
  | data (typ : Nat) (payload : List Nat)
  | nest (typ : Nat) (children : List NlAttr)
  deriving Repr

/-- Children of a nest attribute (a flat attribute nests nothing). -/
def NlAttr.children : NlAttr → List NlAttr
  | .nest _ c => c
  | .data _ _ => []

/-- Little-endian byte decoding (`mnl_attr_get_u16/u32/u64`). -/
def decLE (b : List Nat) : Nat := b.foldr (fun x a => x % 256 + 256 * a) 0

/-- `mnl_attr_parse(_nested)`: run the callback over the attribute list,
stopping at the first result `≤ MNL_CB_STOP` and returning it (an empty list
yields `MNL_CB_OK`). -/
def foldCB (f : σ → NlAttr → σ × Int) : σ → List NlAttr → σ × Int
  | s, [] => (s, 1)
  | s, a :: as =>
    let r := f s a
    if r.2 ≤ 0 then r else foldCB f r.1 as

/-- Netlink attribute type numbers from the wireguard uapi (the external
generic-netlink interface contract). -/
def WGDEVICE_A_IFINDEX : Nat := 1

def WGDEVICE_A_IFNAME : Nat := 2

def WGDEVICE_A_PRIVATE_KEY : Nat := 3

def WGDEVICE_A_PUBLIC_KEY : Nat := 4

def WGDEVICE_A_LISTEN_PORT : Nat := 6

def WGDEVICE_A_FWMARK : Nat := 7

def WGDEVICE_A_PEERS : Nat := 8

def WGPEER_A_PUBLIC_KEY : Nat := 1

def WGPEER_A_PRESHARED_KEY : Nat := 2

def WGPEER_A_ENDPOINT : Nat := 4

def WGPEER_A_PERSISTENT_KEEPALIVE_INTERVAL : Nat := 5

def WGPEER_A_LAST_HANDSHAKE_TIME : Nat := 6

def WGPEER_A_RX_BYTES : Nat := 7

def WGPEER_A_TX_BYTES : Nat := 8

def WGPEER_A_ALLOWEDIPS : Nat := 9

def WGALLOWEDIP_A_FAMILY : Nat := 1

def WGALLOWEDIP_A_IPADDR : Nat := 2

def WGALLOWEDIP_A_CIDR_MASK : Nat := 3

/-- `parse_allowedip` (ipc.c lines 682-706): fill one allowed-ip record from
one attribute; malformed fixed-size attributes are skipped, never fatal. -/
def parse_allowedip (aip : WgAllowedIP) (a : NlAttr) : WgAllowedIP × Int :=
  match a with
  | .nest _ _ => (aip, 1)
  | .data t p =>
    if t = WGALLOWEDIP_A_FAMILY then
      (if p.length = 2 then { aip with family := decLE p } else aip, 1)
    else if t = WGALLOWEDIP_A_IPADDR then
      (if p.length = 4 then { aip with ip4 := p }
       else if p.length = 16 then { aip with ip6 := p }
       else aip, 1)
    else if t = WGALLOWEDIP_A_CIDR_MASK then
      (if p.length = 1 then { aip with cidr := p.headD 0 } else aip, 1)
    else (aip, 1)

/-- `parse_allowedips` (ipc.c lines 708-730): `calloc` a record, link it into
the peer's chain, parse the nest into it, then return `MNL_CB_ERROR` unless
`family = AF_INET ∧ cidr ≤ 32` or `family = AF_INET6 ∧ cidr ≤ 128`.  The
state is the peer paired with the allocation counter. -/
def parse_allowedips (st : WgPeer × Nat) (attr : NlAttr) : (WgPeer × Nat) × Int :=
  let r := foldCB parse_allowedip ({} : WgAllowedIP) attr.children
  let st' : WgPeer × Nat :=
    ({ st.1 with allowedips := st.1.allowedips ++ [r.1] }, st.2 + 1)
  if r.2 = 0 then (st', 0)
  else if ¬ ((r.1.family = AF_INET ∧ r.1.cidr ≤ 32) ∨
             (r.1.family = AF_INET6 ∧ r.1.cidr ≤ 128)) then (st', -1)
  else (st', 1)

/-- `parse_peer` (ipc.c lines 732-785). -/
def parse_peer (st : WgPeer × Nat) (a : NlAttr) : (WgPeer × Nat) × Int :=
  let p := st.1
  match a with
  | .nest t c =>
    if t = WGPEER_A_ALLOWEDIPS then foldCB parse_allowedips st c else (st, 1)
  | .data t b =>
      if t = WGPEER_A_PUBLIC_KEY then
        (if b.length = 32 then
           ({ p with public_key := b, flags := { p.flags with hasPublicKey := true } }, st.2)
         else st, 1)
      else if t = WGPEER_A_PRESHARED_KEY then
        (if b.length = 32 then
           ({ p with
              preshared_key := b
              flags := { p.flags with
                hasPresharedKey := p.flags.hasPresharedKey || ! key_is_zero b } }, st.2)
         else st, 1)
      else if t = WGPEER_A_ENDPOINT then
        (if b.length < 16 then st
         else if decLE (b.take 2) = AF_INET ∧ b.length = 16 then
           ({ p with endpoint := .v4 b }, st.2)
         else if decLE (b.take 2) = AF_INET6 ∧ b.length = 28 then
           ({ p with endpoint := .v6 b }, st.2)
         else st, 1)
      else if t = WGPEER_A_PERSISTENT_KEEPALIVE_INTERVAL then
        (if b.length = 2 then ({ p with persistent_keepalive_interval := decLE b }, st.2)
         else st, 1)
      else if t = WGPEER_A_LAST_HANDSHAKE_TIME then
        (if b.length = 16 then
           ({ p with last_handshake_time_sec := decLE (b.take 8)
                     last_handshake_time_nsec := decLE (b.drop 8) }, st.2)
         else st, 1)
      else if t = WGPEER_A_RX_BYTES then
        (if b.length = 8 then ({ p with rx_bytes := decLE b }, st.2) else st, 1)
      else if t = WGPEER_A_TX_BYTES then
        (if b.length = 8 then ({ p with tx_bytes := decLE b }, st.2) else st, 1)
      else (st, 1)

/-- `parse_peers` (ipc.c lines 787-809): `calloc` a peer, link it into the
device's chain, parse the nest into it; `if (!ret) return ret` propagates
only `MNL_CB_STOP`, so an inner `MNL_CB_ERROR` falls through to the
public-key check and is replaced by `MNL_CB_OK` when the peer has one. -/
def parse_peers (st : WgDevice × Nat) (attr : NlAttr) : (WgDevice × Nat) × Int :=
  let r := foldCB parse_peer (({} : WgPeer), st.2 + 1) attr.children
  let st' : WgDevice × Nat :=
    ({ st.1 with peers := st.1.peers ++ [r.1.1] }, r.1.2)
  if r.2 = 0 then (st', 0)
  else if ¬ r.1.1.flags.hasPublicKey then (st', -1)
  else (st', 1)

/-- `parse_device` (ipc.c lines 811-853). -/
def parse_device (st : WgDevice × Nat) (a : NlAttr) : (WgDevice × Nat) × Int :=
  let d := st.1
  match a with
  | .nest t c =>
    if t = WGDEVICE_A_PEERS then foldCB parse_peers st c else (st, 1)
  | .data t b =>
    if t = WGDEVICE_A_IFINDEX then
      (if b.length = 4 then ({ d with ifindex := decLE b }, st.2) else st, 1)
    else if t = WGDEVICE_A_IFNAME then
      (if b.length ≠ 0 then
         ({ d with name := ((b.takeWhile (· ≠ 0)).take 15).map Char.ofNat }, st.2)
       else st, 1)
    else if t = WGDEVICE_A_PRIVATE_KEY then
      (if b.length = 32 then
         ({ d with private_key := b, flags := { d.flags with hasPrivateKey := true } }, st.2)
       else st, 1)
    else if t = WGDEVICE_A_PUBLIC_KEY then
      (if b.length = 32 then
         ({ d with public_key := b, flags := { d.flags with hasPublicKey := true } }, st.2)
       else st, 1)
    else if t = WGDEVICE_A_LISTEN_PORT then
      (if b.length = 2 then ({ d with listen_port := decLE b }, st.2) else st, 1)
    else if t = WGDEVICE_A_FWMARK then
      (if b.length = 4 then ({ d with fwmark := decLE b }, st.2) else st, 1)
    else (st, 1)

/-- `read_device_cb` over the sequence of dump reply messages, with libmnl's
stop-on-`≤ MNL_CB_STOP` behaviour across messages. -/
def runDeviceMsgs (st : WgDevice × Nat) : List (List NlAttr) → (WgDevice × Nat) × Int
  | [] => (st, 1)
  | m :: ms =>
    let r := foldCB parse_device st m
    if r.2 ≤ 0 then r else runDeviceMsgs r.1 ms

/-- `kernel_get_device` (Linux, ipc.c lines 882-925) over the received dump
messages: the device record is `calloc`ed (all fields zeroed — its name is
filled from the reply's `WGDEVICE_A_IFNAME`, `iface` only addresses the
request), every message is parsed, then the coalescing pass runs; a callback
error surfaces as `-EINVAL` (`errno` is zero at that point), frees the tree
built so far, and nulls the out-parameter. -/
def kernel_get_device (iface : List Char) (msgs : List (List NlAttr)) : URes :=
  let st0 : WgDevice × Nat := ({}, 1)
  let r := runDeviceMsgs st0 msgs
  if r.2 < 0 then .err (-EINVAL) r.1.1 r.1.2
  else .ok { r.1.1 with peers := coalesce_peers r.1.1.peers } r.1.2

/-! ## Allocation accounting (claim C9)

Every record `calloc`ed during a decode bumps the instrumented counter; the
invariant below states that the counter always equals the number of records
reachable from the device tree, so the single `free_wgdevice` on the error
path releases exactly everything that was allocated. -/

/-- Records reachable from the decoder state (device, peers, allowed-ips). -/
def UState.size (st : UState) : Nat :=
  1 + st.donePeers.length + (st.donePeers.map (fun p => p.allowedips.length)).sum +
    (match st.cur with | none => 0 | some p => 1 + p.allowedips.length)

theorem UState.finalDev_treeSize (st : UState) : st.finalDev.treeSize = st.size := by
  cases h : st.cur <;>
    simp [UState.finalDev, WgDevice.treeSize, UState.size, h, Option.toList] <;> omega

/-- Preservation of "tree size tracks the allocation counter" along one step. -/
def SizeOk (st : UState) (u : UStep) : Prop :=
  u.state.size + st.allocs = st.size + u.state.allocs

theorem kvPrivateKey_size (ext : Ext) (st : UState) (value : List Char) :
    SizeOk st (kvPrivateKey ext st value) := by
  unfold kvPrivateKey SizeOk
  split <;> rfl

theorem kvListenPort_size (st : UState) (value : List Char) :
    SizeOk st (kvListenPort st value) := by
  unfold kvListenPort SizeOk
  split <;> rfl

theorem kvFwmark_size (st : UState) (value : List Char) :
    SizeOk st (kvFwmark st value) := by
  unfold kvFwmark SizeOk
  split <;> rfl

theorem kvErrno_size (st : UState) (value : List Char) :
    SizeOk st (kvErrno st value) := by
  unfold kvErrno SizeOk
  split <;> rfl

theorem kvPublicKey_size (ext : Ext) (st : UState) (value : List Char) :
    SizeOk st (kvPublicKey ext st value) := by
  unfold kvPublicKey SizeOk
  split <;> cases h : st.cur <;> simp [UStep.state, UState.size, h] <;> omega

theorem kvPresharedKey_size (ext : Ext) (st : UState) (p : WgPeer) (value : List Char)
    (h : st.cur = some p) : SizeOk st (kvPresharedKey ext st p value) := by
  unfold kvPresharedKey SizeOk
  split <;> simp [UStep.state, UState.size, h]

theorem kvEndpointResolve_size (ext : Ext) (st : UState) (p : WgPeer)
    (host port : List Char) (h : st.cur = some p) :
    SizeOk st (kvEndpointResolve ext st p host port) := by
  unfold kvEndpointResolve SizeOk
  split <;> simp [UStep.state, UState.size, h]

theorem kvEndpoint_size (ext : Ext) (st : UState) (p : WgPeer) (value : List Char)
    (h : st.cur = some p) : SizeOk st (kvEndpoint ext st p value) := by
  unfold kvEndpoint
  repeat' split
  all_goals first
    | exact kvEndpointResolve_size ext st p _ _ h
    | (unfold SizeOk; rfl)

theorem kvKeepalive_size (st : UState) (p : WgPeer) (value : List Char)
    (h : st.cur = some p) : SizeOk st (kvKeepalive st p value) := by
  unfold kvKeepalive SizeOk
  split <;> simp [UStep.state, UState.size, h]

theorem kvAllowedIP_size (ext : Ext) (st : UState) (p : WgPeer) (value : List Char)
    (h : st.cur = some p) : SizeOk st (kvAllowedIP ext st p value) := by
  unfold kvAllowedIP SizeOk
  simp only []
  repeat' split
  all_goals simp [UStep.state, UState.size, h]
  all_goals omega

theorem kvHsSec_size (st : UState) (p : WgPeer) (value : List Char)
    (h : st.cur = some p) : SizeOk st (kvHsSec st p value) := by
  unfold kvHsSec SizeOk
  split <;> simp [UStep.state, UState.size, h]

theorem kvHsNsec_size (st : UState) (p : WgPeer) (value : List Char)
    (h : st.cur = some p) : SizeOk st (kvHsNsec st p value) := by
  unfold kvHsNsec SizeOk
  split <;> simp [UStep.state, UState.size, h]

theorem kvRxBytes_size (st : UState) (p : WgPeer) (value : List Char)
    (h : st.cur = some p) : SizeOk st (kvRxBytes st p value) := by
  unfold kvRxBytes SizeOk
  split <;> simp [UStep.state, UState.size, h]

theorem kvTxBytes_size (st : UState) (p : WgPeer) (value : List Char)
    (h : st.cur = some p) : SizeOk st (kvTxBytes st p value) := by
  unfold kvTxBytes SizeOk
  split <;> simp [UStep.state, UState.size, h]

set_option maxHeartbeats 2000000 in
theorem processKV_size (ext : Ext) (st : UState) (key value : List Char) :
    SizeOk st (processKV ext st key value) := by
  unfold processKV
  cases hcur : st.cur with
  | none =>
    simp only [hcur, eq_self_iff_true, true_and]
    repeat' split
    all_goals first
      | exact kvPrivateKey_size ext st value
      | exact kvListenPort_size st value
      | exact kvFwmark_size st value
      | exact kvPublicKey_size ext st value
      | exact kvErrno_size st value
      | (unfold SizeOk; rfl)
  | some p =>
    simp only [hcur]
    rw [if_neg (by simp), if_neg (by simp), if_neg (by simp)]
    repeat' split
    all_goals first
      | exact kvPrivateKey_size ext st value
      | exact kvListenPort_size st value
      | exact kvFwmark_size st value
      | exact kvPublicKey_size ext st value
      | exact kvErrno_size st value
      | (unfold SizeOk; rfl)
      | exact kvPresharedKey_size ext st p value hcur
      | exact kvEndpoint_size ext st p value hcur
      | exact kvKeepalive_size st p value hcur
      | exact kvAllowedIP_size ext st p value hcur
      | exact kvHsSec_size st p value hcur
      | exact kvHsNsec_size st p value hcur
      | exact kvRxBytes_size st p value hcur
      | exact kvTxBytes_size st p value hcur

theorem uProcessLine_size (ext : Ext) (st : UState) (line : List Char) :
    SizeOk st (uProcessLine ext st line) := by
  unfold uProcessLine
  repeat' split
  all_goals first
    | (unfold SizeOk; rfl)
    | exact processKV_size ext st _ _

/-- Over the whole getline loop, the final state's reachable-record count
still equals its allocation counter (relative form). -/
theorem uLoopAcc_size (ext : Ext) :
    ∀ (stream acc : List Char) (st : UState),
      (uLoopAcc ext st acc stream).1.size + st.allocs
        = st.size + (uLoopAcc ext st acc stream).1.allocs := by
  intro stream
  induction stream with
  | nil =>
    intro acc st
    match acc with
    | [] => rfl
    | c :: acc' =>
      have hs := uProcessLine_size ext st (c :: acc')
      rw [uLoopAcc]
      cases hstep : uProcessLine ext st (c :: acc') with
      | cont st' =>
        rw [hstep] at hs
        unfold SizeOk at hs
        simp only [UStep.state] at hs
        simp only [hstep]
        omega
      | brk st' =>
        rw [hstep] at hs
        unfold SizeOk at hs
        simp only [UStep.state] at hs
        simp only [hstep]
        omega
      | gotoErr st' =>
        rw [hstep] at hs
        unfold SizeOk at hs
        simp only [UStep.state] at hs
        simp only [hstep]
        omega
  | cons c rest ih =>
    intro acc st
    rw [uLoopAcc]
    split
    · have hs := uProcessLine_size ext st (acc ++ ['\n'])
      cases hstep : uProcessLine ext st (acc ++ ['\n']) with
      | cont st' =>
        rw [hstep] at hs
        unfold SizeOk at hs
        simp only [UStep.state] at hs
        simp only [hstep]
        have h2 := ih [] st'
        omega
      | brk st' =>
        rw [hstep] at hs
        unfold SizeOk at hs
        simp only [UStep.state] at hs
        simp only [hstep]
        omega
      | gotoErr st' =>
        rw [hstep] at hs
        unfold SizeOk at hs
        simp only [UStep.state] at hs
        simp only [hstep]
        omega
    · exact ih (acc ++ [c]) st

theorem uLoop_size (ext : Ext) (stream : List Char) (st : UState) :
    (uLoop ext st stream).1.size + st.allocs
      = st.size + (uLoop ext st stream).1.allocs :=
  uLoopAcc_size ext stream [] st

/-- Generic preservation along the libmnl callback fold. -/
theorem foldCB_preserve {σ : Type} (P : σ → Prop) (f : σ → NlAttr → σ × Int)
    (h : ∀ s a, P s → P (f s a).1) :
    ∀ (l : List NlAttr) (s : σ), P s → P (foldCB f s l).1 := by
  intro l
  induction l with
  | nil => intro s hs; exact hs
  | cons a as ih =>
    intro s hs
    rw [foldCB]
    split
    · exact h s a hs
    · exact ih _ (h s a hs)

theorem parse_allowedips_size (b : Nat) (st : WgPeer × Nat) (a : NlAttr)
    (h : st.2 = b + st.1.allowedips.length) :
    (parse_allowedips st a).1.2 = b + (parse_allowedips st a).1.1.allowedips.length := by
  unfold parse_allowedips
  simp only []
  repeat' split
  all_goals simp
  all_goals omega

theorem parse_peer_size (b : Nat) (st : WgPeer × Nat) (a : NlAttr)
    (h : st.2 = b + st.1.allowedips.length) :
    (parse_peer st a).1.2 = b + (parse_peer st a).1.1.allowedips.length := by
  unfold parse_peer
  repeat' split
  all_goals first
    | exact foldCB_preserve (fun s => s.2 = b + s.1.allowedips.length)
        parse_allowedips (fun s a hs => parse_allowedips_size b s a hs) _ st h
    | simpa using h
    | exact h

theorem parse_peers_size (st : WgDevice × Nat) (a : NlAttr)
    (h : st.2 = st.1.treeSize) :
    (parse_peers st a).1.2 = (parse_peers st a).1.1.treeSize := by
  have hfold := foldCB_preserve
    (fun s : WgPeer × Nat => s.2 = (st.2 + 1) + s.1.allowedips.length)
    parse_peer (fun s a hs => parse_peer_size (st.2 + 1) s a hs) a.children
    (({} : WgPeer), st.2 + 1) (by simp)
  simp only [] at hfold
  simp only [WgDevice.treeSize] at h
  unfold parse_peers
  simp only []
  repeat' split
  all_goals simp only [WgDevice.treeSize, List.length_append, List.map_append,
    List.sum_append, List.length_cons, List.map_cons, List.sum_cons, List.map_nil,
    List.sum_nil, List.length_nil, Nat.add_zero, Nat.zero_add]
  all_goals omega

theorem parse_device_size (st : WgDevice × Nat) (a : NlAttr)
    (h : st.2 = st.1.treeSize) :
    (parse_device st a).1.2 = (parse_device st a).1.1.treeSize := by
  unfold parse_device
  repeat' split
  all_goals first
    | exact foldCB_preserve (fun s : WgDevice × Nat => s.2 = s.1.treeSize)
        parse_peers (fun s a hs => parse_peers_size s a hs) _ st h
    | exact h
    | simpa [WgDevice.treeSize] using h

theorem runDeviceMsgs_size (msgs : List (List NlAttr)) (st : WgDevice × Nat)
    (h : st.2 = st.1.treeSize) :
    (runDeviceMsgs st msgs).1.2 = (runDeviceMsgs st msgs).1.1.treeSize := by
  induction msgs generalizing st with
  | nil => exact h
  | cons m ms ih =>
    rw [runDeviceMsgs]
    have hm := foldCB_preserve (fun s : WgDevice × Nat => s.2 = s.1.treeSize)
      parse_device (fun s a hs => parse_device_size s a hs) m st h
    split
    · exact hm
    · exact ih _ hm


/-! ## Supporting lemmas on line splitting -/

theorem splitAtChar_not_mem (ch : Char) (l : List Char) (h : ch ∉ l) :
    splitAtChar ch l = none := by
  induction l with
  | nil => rfl
  | cons c rest ih =>
    have h1 : ¬ c = ch := fun e => h (List.mem_cons.mpr (Or.inl e.symm))
    have h2 : ch ∉ rest := fun m => h (List.mem_cons.mpr (Or.inr m))
    rw [splitAtChar, if_neg h1, ih h2]
    rfl

theorem splitAtChar_first (ch : Char) (a b : List Char) (h : ch ∉ a) :
    splitAtChar ch (a ++ ch :: b) = some (a, b) := by
  induction a with
  | nil => simp [splitAtChar]
  | cons c rest ih =>
    have h1 : ¬ c = ch := fun e => h (List.mem_cons.mpr (Or.inl e.symm))
    have h2 : ch ∉ rest := fun m => h (List.mem_cons.mpr (Or.inr m))
    rw [List.cons_append, splitAtChar, if_neg h1, ih h2]
    rfl

theorem splitAtChar_decomp (ch : Char) (l : List Char) (a b : List Char)
    (h : splitAtChar ch l = some (a, b)) : l = a ++ ch :: b := by
  induction l generalizing a with
  | nil => exact Option.noConfusion h
  | cons c rest ih =>
    rw [splitAtChar] at h
    by_cases hc : c = ch
    · rw [if_pos hc] at h
      injection h with h
      injection h with h1 h2
      subst h1; subst h2; subst hc
      rfl
    · rw [if_neg hc] at h
      match hsp : splitAtChar ch rest with
      | none => rw [hsp] at h; exact Option.noConfusion h
      | some r =>
        rw [hsp] at h
        simp only [Option.map] at h
        injection h with h
        have ha : a = c :: r.1 := congrArg Prod.fst h.symm
        have hb : b = r.2 := congrArg Prod.snd h.symm
        subst ha; subst hb
        rw [List.cons_append]
        rw [← ih r.1 (by rw [hsp])]

/-- The getline loop on a stream whose first line is `acc ++ l ++ ['\n']`:
the accumulated prefix and the characters up to the first newline form the
line that is dispatched. -/
theorem uLoopAcc_to_newline (ext : Ext) (st : UState) (acc l r : List Char)
    (h : '\n' ∉ l) :
    uLoopAcc ext st acc (l ++ '\n' :: r) =
      match uProcessLine ext st ((acc ++ l) ++ ['\n']) with
      | .cont st' => uLoopAcc ext st' [] r
      | .brk st' => (st', -EPROTO)
      | .gotoErr st' => (st', st'.ret) := by
  induction l generalizing acc with
  | nil =>
    rw [List.nil_append, uLoopAcc, if_pos rfl]
    rw [List.append_nil]
  | cons c l' ih =>
    have h1 : ¬ c = '\n' := fun e => h (List.mem_cons.mpr (Or.inl e.symm))
    have h2 : '\n' ∉ l' := fun m => h (List.mem_cons.mpr (Or.inr m))
    rw [List.cons_append, uLoopAcc, if_neg h1, ih (acc ++ [c]) h2]
    rw [List.append_assoc acc [c] l']
    rfl

/-- The getline loop on a newline-free remainder: everything is accumulated
and delivered as the final partial line at end of stream. -/
theorem uLoopAcc_no_newline (ext : Ext) (st : UState) (acc l : List Char)
    (h : '\n' ∉ l) :
    uLoopAcc ext st acc l = uLoopAcc ext st (acc ++ l) [] := by
  induction l generalizing acc with
  | nil => rw [List.append_nil]
  | cons c l' ih =>
    have h1 : ¬ c = '\n' := fun e => h (List.mem_cons.mpr (Or.inl e.symm))
    have h2 : '\n' ∉ l' := fun m => h (List.mem_cons.mpr (Or.inr m))
    rw [uLoopAcc, if_neg h1, ih (acc ++ [c]) h2]
    rw [List.append_assoc acc [c] l']
    rfl

/-! ## Characterization of the `NUM` macro (claim C6) -/

theorem NUMparse_eq (max : Nat) (v : List Char) :
    NUMparse max v =
      if v ≠ [] ∧ v.all Char.isDigit ∧ min (decDigits v) ULLONG_MAX ≤ max then
        some (min (decDigits v) ULLONG_MAX)
      else none := by
  match v with
  | [] => simp [NUMparse]
  | c :: cs =>
    rw [NUMparse]
    by_cases hd : c.isDigit
    · rw [if_neg (by simp [hd])]
      by_cases hall : (c :: cs).all Char.isDigit
      · have hdrop : (c :: cs).dropWhile Char.isDigit = [] := by
          rw [List.dropWhile_eq_nil_iff]
          intro x hx
          exact List.all_eq_true.mp hall x hx
        have htake : (c :: cs).takeWhile Char.isDigit = c :: cs := by
          rw [List.takeWhile_eq_self_iff]
          intro x hx
          exact List.all_eq_true.mp hall x hx
        simp only [strtoull10, htake, hdrop]
        by_cases hle : min (decDigits (c :: cs)) ULLONG_MAX ≤ max
        · rw [if_neg (by simp; omega), if_pos (by simp [hall, hle])]
        · rw [if_pos (by simp; omega), if_neg (by simp [hall]; omega)]
      · have hdrop : (c :: cs).dropWhile Char.isDigit ≠ [] := by
          intro hnil
          rw [List.dropWhile_eq_nil_iff] at hnil
          exact hall (List.all_eq_true.mpr hnil)
        simp only [strtoull10]
        rw [if_pos (Or.inl hdrop), if_neg (by simp [hall])]
    · rw [if_pos hd, if_neg]
      simp only [ne_eq, List.all_cons, Bool.and_eq_true]
      intro hcontra
      exact hd hcontra.2.1.1

/-! ## A concrete instance of the external oracles, used by the closed
evaluation theorems below. -/

def ext0 : Ext where
  keyFromHex := fun s =>
    if s = "aa".toList then some (1 :: List.replicate 31 0)
    else if s = "zz".toList then some (List.replicate 32 0)
    else none
  genPublic := fun _ => List.replicate 32 2
  pton4 := fun s => if s = "10.0.0.1".toList then some [10, 0, 0, 1] else none
  pton6 := fun _ => none
  gai := fun _ _ => .fail



/-! ## Claim theorems C4, C5, C6, C8, C9, C10 -/

/-- C4: `coalesce_peers` merges each maximal run of adjacent peers with
identical public keys into the first peer of the run, appending the later
peers' allowed-ip sequences in order and dropping them, leaving every other
peer, all non-allowed-ip fields, and the relative order unchanged (this is
exactly the run-merging function `coalesceSpec`); and in the result no two
adjacent peers have identical public keys. -/
theorem C4_coalesce_merges_adjacent_equal_keys (l : List WgPeer) :
    coalesce_peers l = coalesceSpec l ∧
    (coalesce_peers l).Chain' (fun p q => p.public_key ≠ q.public_key) :=
  ⟨coalesce_peers_eq_spec l, coalesce_peers_chain' l⟩

/-- C5: the coalescing pass is idempotent — running it twice on any decoded
peer sequence yields exactly the same peers with the same per-peer
allowed-ip sequences as running it once. -/
theorem C5_coalesce_idempotent (l : List WgPeer) :
    coalesce_peers (coalesce_peers l) = coalesce_peers l :=
  coalesce_peers_id_of_chain' _ (coalesce_peers_chain' l)

/-- C6 (amended): the `NUM` macro parses unsigned decimal only — the value
must be nonempty, consist solely of digits (no sign, no other base, no
leading whitespace), be consumed entirely, and the parsed number, which
saturates at `ULLONG_MAX = 2^64 - 1` (strtoull overflow, `errno` unchecked),
must not exceed the field bound.  Consequently `listen_port=65535` decodes
successfully with value 65535 while `listen_port=65536` makes the GET fail
with `-EPROTO`; but for the 64-bit byte counters, whose bound equals the
saturation point, an over-range input is accepted as `2^64 - 1` instead of
aborting (see the counterexample). -/
theorem C6_numeric_fields_unsigned_decimal_bounded :
    (∀ (max : Nat) (v : List Char),
        NUMparse max v =
          if v ≠ [] ∧ v.all Char.isDigit ∧ min (decDigits v) ULLONG_MAX ≤ max then
            some (min (decDigits v) ULLONG_MAX)
          else none) ∧
    (userspace_get_device ext0 "wg0".toList "listen_port=65535\nerrno=0\n\n".toList).out =
      some { name := "wg0".toList, flags := { hasListenPort := true }, listen_port := 65535 } ∧
    (userspace_get_device ext0 "wg0".toList "listen_port=65536\nerrno=0\n\n".toList).code
      = -EPROTO :=
  ⟨NUMparse_eq, by decide, by decide⟩

/-- C6 counterexample: the decimal value `2^64 = 18446744073709551616`
exceeds the byte-counter bound `0xffffffffffffffff`, yet the GET decodes it
successfully, silently clamping the counter to `2^64 - 1` — refuting "any
violation aborts the decode with an error". -/
theorem C6_counterexample_rx_bytes_saturates :
    0xffffffffffffffff < decDigits "18446744073709551616".toList ∧
    (userspace_get_device ext0 "wg0".toList
        "public_key=aa\nrx_bytes=18446744073709551616\nerrno=0\n\n".toList).code = 0 ∧
    (userspace_get_device ext0 "wg0".toList
        "public_key=aa\nrx_bytes=18446744073709551616\nerrno=0\n\n".toList).out =
      some { name := "wg0".toList,
             peers := [{ flags := { hasPublicKey := true },
                         public_key := 1 :: List.replicate 31 0,
                         rx_bytes := 0xffffffffffffffff }] } := by
  refine ⟨by decide, by decide, by decide⟩

/-- C8 (amended): end of stream, a line with no `=`, and a line lacking its
trailing newline all stop reading and fail the GET with `-EPROTO`
unconditionally — the unconditional `ret = -EPROTO;` after the loop
overwrites any previously seen `errno=` value (see the counterexample).  An
`errno=` record's value becomes the operation's result only when a blank
line follows it ( `errno=5` then blank yields `-5`); a leading blank line
with no preceding `errno=` record fails the GET with `-EPROTO`. -/
theorem C8_malformed_lines_always_eproto :
    (∀ (ext : Ext) (st : UState), uLoop ext st [] = (st, -EPROTO)) ∧
    (∀ (ext : Ext) (st : UState) (line rest : List Char),
        line ≠ [] → '\n' ∉ line → '=' ∉ line →
        uLoop ext st (line ++ '\n' :: rest) = (st, -EPROTO)) ∧
    (∀ (ext : Ext) (st : UState) (line : List Char),
        line ≠ [] → '\n' ∉ line →
        uLoop ext st line = (st, -EPROTO)) ∧
    (∀ (ext : Ext) (st : UState) (rest : List Char),
        uLoop ext st ('\n' :: rest) = (st, st.ret)) ∧
    (userspace_get_device ext0 "wg0".toList "errno=5\n\n".toList).code = -5 ∧
    (∀ (ext : Ext) (iface rest : List Char),
        (userspace_get_device ext iface ('\n' :: rest)).code = -EPROTO) := by
  have hblank : ∀ (ext : Ext) (st : UState) (rest : List Char),
      uLoop ext st ('\n' :: rest) = (st, st.ret) := by
    intro ext st rest
    rw [uLoop, uLoopAcc, if_pos rfl]
    rw [show uProcessLine ext st ([] ++ ['\n']) = .gotoErr st from by
      rw [List.nil_append, uProcessLine, if_pos rfl]]
  refine ⟨fun ext st => rfl, ?_, ?_, hblank, by decide, ?_⟩
  · intro ext st line rest hne hnl hneq
    rw [uLoop, uLoopAcc_to_newline ext st [] line rest hnl, List.nil_append]
    have hline : ¬ line ++ ['\n'] = ['\n'] := by
      intro hc
      have := congrArg List.length hc
      simp at this
      exact hne this
    have hnm : '=' ∉ line ++ ['\n'] := by
      intro hm
      rcases List.mem_append.mp hm with hm | hm
      · exact hneq hm
      · simp at hm
    rw [uProcessLine, if_neg hline, splitAtChar_not_mem '=' _ hnm]
  · intro ext st line hne hnl
    obtain ⟨c, l', rfl⟩ : ∃ c l', line = c :: l' := by
      cases line with
      | nil => exact absurd rfl hne
      | cons c l' => exact ⟨c, l', rfl⟩
    rw [uLoop, uLoopAcc_no_newline ext st [] (c :: l') hnl, List.nil_append]
    have hline : ¬ c :: l' = ['\n'] := by
      intro hc
      exact hnl (hc ▸ List.mem_cons_self '\n' [])
    have hstep : uProcessLine ext st (c :: l') = .brk st := by
      rw [uProcessLine, if_neg hline]
      cases hsp : splitAtChar '=' (c :: l') with
      | none => rfl
      | some kv =>
        have hdec : c :: l' = kv.1 ++ '=' :: kv.2 :=
          splitAtChar_decomp '=' (c :: l') kv.1 kv.2 hsp
        have hnl2 : '\n' ∉ kv.2 := by
          intro hm
          exact hnl (hdec ▸ List.mem_append.mpr (Or.inr (List.mem_cons.mpr (Or.inr hm))))
        have hgl : ¬ kv.2.getLast? = some '\n' := by
          intro hc
          exact hnl2 (List.mem_of_getLast?_eq_some hc)
        show (if kv.2.getLast? ≠ some '\n' then UStep.brk st
          else processKV ext st kv.1 kv.2.dropLast) = UStep.brk st
        exact if_pos hgl
    rw [uLoopAcc, hstep]
  · intro ext iface rest
    rw [userspace_get_device]
    simp only [hblank]
    rfl

/-- C8 counterexample: after an explicit `errno=5` record, a line with no
`=` does not make `-5` the operation's result as the claim states — the GET
fails with `-EPROTO` instead, because `ret = -EPROTO;` after the loop runs
unconditionally. -/
theorem C8_counterexample_errno_overwritten :
    (userspace_get_device ext0 "wg0".toList "errno=5\nbad\n".toList).code = -EPROTO ∧
    ((-EPROTO : Int) = -5 → False) := by
  refine ⟨by decide, by decide⟩

/-- C8 witness: the amended theorem applied to the concrete malformed line
`bad` (no `=`) after an `errno=5` state. -/
theorem C8_witness :
    uLoop ext0 { dev := {}, ret := -5 } ("bad".toList ++ '\n' :: []) =
      ({ dev := {}, ret := -5 }, -EPROTO) :=
  C8_malformed_lines_always_eproto.2.1 ext0 { dev := {}, ret := -5 }
    "bad".toList [] (by decide) (by decide) (by decide)

/-- C9: every failing GET decode (userspace text protocol or Linux netlink)
returns a nonzero code, hands `free_wgdevice` a tree containing exactly as
many records as were allocated during the decode (1 device + peers +
allowed-ips — nothing was allocated outside the tree, so nothing leaks), and
leaves the caller-visible out-parameter `NULL`. -/
theorem C9_error_paths_free_everything :
    (∀ (ext : Ext) (iface stream : List Char) (code : Int) (freed : WgDevice) (allocs : Nat),
        userspace_get_device ext iface stream = .err code freed allocs →
        code ≠ 0 ∧ freed.treeSize = allocs ∧
          (userspace_get_device ext iface stream).out = none) ∧
    (∀ (iface : List Char) (msgs : List (List NlAttr)) (code : Int) (freed : WgDevice)
        (allocs : Nat),
        kernel_get_device iface msgs = .err code freed allocs →
        code ≠ 0 ∧ freed.treeSize = allocs ∧
          (kernel_get_device iface msgs).out = none) := by
  constructor
  · intro ext iface stream code freed allocs h
    refine ⟨?_, ?_, by rw [h]; rfl⟩ <;>
    · rw [userspace_get_device] at h
      split at h
      · injection h with h1 h2 h3
        first
        | (subst h1; assumption)
        | (subst h2; subst h3
           rw [UState.finalDev_treeSize]
           have hs := uLoop_size ext stream { dev := { name := iface.take 15 } }
           have h1 : ({ dev := { name := iface.take 15 } } : UState).size = 1 := rfl
           have h2 : ({ dev := { name := iface.take 15 } } : UState).allocs = 1 := rfl
           omega)
      · exact URes.noConfusion h
  · intro iface msgs code freed allocs h
    refine ⟨?_, ?_, by rw [h]; rfl⟩ <;>
    · rw [kernel_get_device] at h
      split at h
      · injection h with h1 h2 h3
        first
        | (subst h1; decide)
        | (subst h2; subst h3
           have hs := runDeviceMsgs_size msgs ({}, 1) (by rfl)
           omega)
      · exact URes.noConfusion h

/-- C9 witness: the theorem applied to an empty userspace response stream
(fails with `-EPROTO`, the lone device record freed) and to a netlink reply
carrying one peer nest without a public key (fails with `-EINVAL`, device
and peer records freed). -/
theorem C9_witness :
    ((-EPROTO : Int) ≠ 0 ∧ (({ name := [] } : WgDevice)).treeSize = 1 ∧
      (userspace_get_device ext0 [] []).out = none) ∧
    ((-EINVAL : Int) ≠ 0 ∧
      (({ name := [], peers := [{}] } : WgDevice)).treeSize = 2 ∧
      (kernel_get_device [] [[.nest WGDEVICE_A_PEERS [.nest 0 []]]]).out = none) :=
  ⟨C9_error_paths_free_everything.1 ext0 [] [] (-EPROTO) { name := [] } 1 (by decide),
   C9_error_paths_free_everything.2 [] [[.nest WGDEVICE_A_PEERS [.nest 0 []]]]
     (-EINVAL) { name := [], peers := [{}] } 2 (by decide)⟩

/-- The keys the dispatch chain acts on in a given decoder state: the three
device-scoped keys only before the first `public_key`, the peer-scoped keys
only once a peer exists, and `public_key`/`errno` always. -/
def recognizedKey (st : UState) (key : List Char) : Prop :=
  key = "public_key".toList ∨ key = "errno".toList ∨
  (st.cur = none ∧
    (key = "private_key".toList ∨ key = "listen_port".toList ∨ key = "fwmark".toList)) ∨
  (st.cur ≠ none ∧
    (key = "preshared_key".toList ∨ key = "endpoint".toList ∨
     key = "persistent_keepalive_interval".toList ∨ key = "allowed_ip".toList ∨
     key = "last_handshake_time_sec".toList ∨ key = "last_handshake_time_nsec".toList ∨
     key = "rx_bytes".toList ∨ key = "tx_bytes".toList))

instance (st : UState) (key : List Char) : Decidable (recognizedKey st key) := by
  unfold recognizedKey
  infer_instance

/-- C10: a well-formed `key=value` line whose key is not recognized in the
current state — including a device-scoped key after the first `public_key`
line and a peer-scoped key before any `public_key` line — is silently
ignored: the step leaves the decoder state unchanged and continues, and the
whole loop behaves as if the line were absent. -/
theorem C10_unrecognized_keys_ignored (ext : Ext) (st : UState)
    (key value rest : List Char) (hrec : ¬ recognizedKey st key)
    (hk1 : '=' ∉ key) (hk2 : '\n' ∉ key) (hv : '\n' ∉ value) :
    uProcessLine ext st (key ++ '=' :: (value ++ ['\n'])) = .cont st ∧
    uLoop ext st ((key ++ '=' :: (value ++ ['\n'])) ++ rest) = uLoop ext st rest := by
  have hpk : ¬ key = "public_key".toList := fun e => hrec (Or.inl e)
  have herr : ¬ key = "errno".toList := fun e => hrec (Or.inr (Or.inl e))
  have hstep : uProcessLine ext st (key ++ '=' :: (value ++ ['\n'])) = .cont st := by
    have hline : ¬ key ++ '=' :: (value ++ ['\n']) = ['\n'] := by
      intro hc
      have hm : ('=' : Char) ∈ key ++ '=' :: (value ++ ['\n']) :=
        List.mem_append.mpr (Or.inr (List.mem_cons_self _ _))
      rw [hc] at hm
      simp at hm
    rw [uProcessLine, if_neg hline, splitAtChar_first '=' key _ hk1]
    simp only [List.getLast?_concat, List.dropLast_concat]
    rw [if_neg (by simp)]
    rw [processKV]
    cases hcur : st.cur with
    | none =>
      have hdev : ¬ (key = "private_key".toList ∨ key = "listen_port".toList ∨
          key = "fwmark".toList) :=
        fun hd => hrec (Or.inr (Or.inr (Or.inl ⟨hcur, hd⟩)))
      push_neg at hdev
      rw [if_neg (fun hc => hdev.1 hc.2), if_neg (fun hc => hdev.2.1 hc.2),
        if_neg (fun hc => hdev.2.2 hc.2), if_neg hpk]
      show (if key = "errno".toList then kvErrno st value else UStep.cont st) = UStep.cont st
      exact if_neg herr
    | some p =>
      have hcne : st.cur ≠ none := by rw [hcur]; exact fun hc => Option.noConfusion hc
      have hpeer : ¬ (key = "preshared_key".toList ∨ key = "endpoint".toList ∨
          key = "persistent_keepalive_interval".toList ∨ key = "allowed_ip".toList ∨
          key = "last_handshake_time_sec".toList ∨ key = "last_handshake_time_nsec".toList ∨
          key = "rx_bytes".toList ∨ key = "tx_bytes".toList) :=
        fun hp => hrec (Or.inr (Or.inr (Or.inr ⟨hcne, hp⟩)))
      push_neg at hpeer
      rw [if_neg (fun hc => Option.noConfusion hc.1), if_neg (fun hc => Option.noConfusion hc.1),
        if_neg (fun hc => Option.noConfusion hc.1), if_neg hpk]
      show (if key = "preshared_key".toList then kvPresharedKey ext st p value
        else if key = "endpoint".toList then kvEndpoint ext st p value
        else if key = "persistent_keepalive_interval".toList then kvKeepalive st p value
        else if key = "allowed_ip".toList then kvAllowedIP ext st p value
        else if key = "last_handshake_time_sec".toList then kvHsSec st p value
        else if key = "last_handshake_time_nsec".toList then kvHsNsec st p value
        else if key = "rx_bytes".toList then kvRxBytes st p value
        else if key = "tx_bytes".toList then kvTxBytes st p value
        else if key = "errno".toList then kvErrno st value
        else UStep.cont st) = UStep.cont st
      rw [if_neg hpeer.1, if_neg hpeer.2.1, if_neg hpeer.2.2.1, if_neg hpeer.2.2.2.1,
        if_neg hpeer.2.2.2.2.1, if_neg hpeer.2.2.2.2.2.1, if_neg hpeer.2.2.2.2.2.2.1,
        if_neg hpeer.2.2.2.2.2.2.2, if_neg herr]
  refine ⟨hstep, ?_⟩
  have hassoc : (key ++ '=' :: (value ++ ['\n'])) ++ rest
      = (key ++ '=' :: value) ++ '\n' :: rest := by
    simp
  have hnl : '\n' ∉ key ++ '=' :: value := by
    intro hm
    rcases List.mem_append.mp hm with hm | hm
    · exact hk2 hm
    · rcases List.mem_cons.mp hm with hm | hm
      · exact absurd hm.symm (by decide)
      · exact hv hm
  rw [hassoc, uLoop, uLoopAcc_to_newline ext st [] _ rest hnl, List.nil_append]
  have h2 : (key ++ '=' :: value) ++ ['\n'] = key ++ '=' :: (value ++ ['\n']) := by simp
  rw [h2, hstep]
  rfl

/-- C10 witness: the theorem applied to `private_key=` arriving after a peer
has started (a device-scoped key past the first `public_key`), which is
silently skipped. -/
theorem C10_witness :
    uProcessLine ext0 { dev := {}, cur := some {} }
        ("private_key".toList ++ '=' :: ("ab".toList ++ ['\n'])) =
      .cont { dev := {}, cur := some {} } ∧
    uLoop ext0 { dev := {}, cur := some {} }
        (("private_key".toList ++ '=' :: ("ab".toList ++ ['\n'])) ++ []) =
      uLoop ext0 { dev := {}, cur := some {} } [] :=
  C10_unrecognized_keys_ignored ext0 { dev := {}, cur := some {} }
    "private_key".toList "ab".toList [] (by decide) (by decide) (by decide) (by decide)



/-! ## Claim C1: allowed-ip range enforcement on GET

The userspace decoder rejects an out-of-range CIDR with `break` → `-EPROTO`
(ipc.c line 407).  The netlink decoder's `parse_allowedips` flags the same
violation with `MNL_CB_ERROR` — but `parse_peers` checks only `if (!ret)`
(`MNL_CB_STOP`), so when the peer carries a public key the error is replaced
by `MNL_CB_OK` and the GET *succeeds*, with the invalid record already
linked into the peer's chain. -/

/-- A netlink allowed-ip nest with `family = AF_INET` and `cidr = 33`. -/
def c1BadAipNest : NlAttr :=
  .nest 0 [.data WGALLOWEDIP_A_FAMILY [2, 0],
           .data WGALLOWEDIP_A_IPADDR [10, 0, 0, 1],
           .data WGALLOWEDIP_A_CIDR_MASK [33]]

/-- A netlink GET reply: one peer with a public key and the `/33` record. -/
def c1FailingMsgs : List (List NlAttr) :=
  [[.nest WGDEVICE_A_PEERS
      [.nest 0 [.data WGPEER_A_PUBLIC_KEY (List.replicate 32 7),
                .nest WGPEER_A_ALLOWEDIPS [c1BadAipNest]]]]]

/-- C1 (code bug): the netlink GET of a reply containing an IPv4 allowed-ip
with `cidr = 33` *succeeds* (code 0) and the decoded device contains the
out-of-range record — `parse_peers` drops the `MNL_CB_ERROR` issued by
`parse_allowedips` whenever the peer has a public key.  The userspace
decoder of the very same record rejects it with `-EPROTO`, confirming that
rejection is the intended behaviour. -/
theorem C1_netlink_swallows_cidr_error :
    (kernel_get_device "wg0".toList c1FailingMsgs).code = 0 ∧
    ((kernel_get_device "wg0".toList c1FailingMsgs).out.map
        (fun d => d.peers.map (fun p => p.allowedips.map (fun a => (a.family, a.cidr)))))
      = some [[(AF_INET, 33)]] ∧
    ¬ ((AF_INET = AF_INET ∧ 33 ≤ 32) ∨ (AF_INET = AF_INET6 ∧ 33 ≤ 128)) ∧
    (userspace_get_device ext0 "wg0".toList
        "public_key=aa\nallowed_ip=10.0.0.1/33\nerrno=0\n\n".toList).code = -EPROTO := by
  refine ⟨by decide, by decide, by decide, by decide⟩

/-! ## OpenBSD ioctl GET client, per-peer conversion (ipc.c lines 1022-1081)

Only the record conversion is modelled (the flat-buffer walk is pointer
arithmetic over `wg_peer_io`/`wg_aip_io` counts).  The relevant behaviour for
claim C7 sits entirely in this conversion. -/

/-- One `struct wg_aip_io` from the kernel buffer. -/
structure WgAipIoBsd where
  a_af : Nat := AF_UNSPEC
  a_ipv4 : List Nat := []
  a_ipv6 : List Nat := []
  a_cidr : Nat := 0
  deriving DecidableEq, Repr

/-- One `struct wg_peer_io` from the kernel buffer (`p_flags` as booleans). -/
structure WgPeerIoBsd where
  hasPublic : Bool := false
  hasPsk : Bool := false
  hasPka : Bool := false
  hasEndpoint : Bool := false
  saFits : Bool := true
  p_public : Key32 := List.replicate 32 0
  p_psk : Key32 := List.replicate 32 0
  p_pka : Nat := 0
  p_sa : EndpointU := .none
  p_rxbytes : Nat := 0
  p_txbytes : Nat := 0
  p_sec : Nat := 0
  p_nsec : Nat := 0
  p_aips : List WgAipIoBsd := []
  deriving DecidableEq, Repr

/-- The allowed-ip conversion (ipc.c lines 1070-1077): the family is copied
unconditionally; address and cidr only for the two known families. -/
def openbsd_parse_aip (a : WgAipIoBsd) : WgAllowedIP :=
  if a.a_af = AF_INET then { family := a.a_af, ip4 := a.a_ipv4, cidr := a.a_cidr }
  else if a.a_af = AF_INET6 then { family := a.a_af, ip6 := a.a_ipv6, cidr := a.a_cidr }
  else { family := a.a_af }

/-- The peer conversion (ipc.c lines 1034-1079).  Note the preshared-key
case (lines 1039-1042): the `WG_PEER_HAS_PSK` flag is copied verbatim,
without the `key_is_zero` test the userspace and netlink decoders apply. -/
def openbsd_parse_peer (wp : WgPeerIoBsd) : WgPeer :=
  { flags := { hasPublicKey := wp.hasPublic
               hasPresharedKey := wp.hasPsk
               hasKeepalive := wp.hasPka }
    public_key := if wp.hasPublic then wp.p_public else List.replicate 32 0
    preshared_key := if wp.hasPsk then wp.p_psk else List.replicate 32 0
    persistent_keepalive_interval := if wp.hasPka then wp.p_pka else 0
    endpoint := if wp.hasEndpoint && wp.saFits then wp.p_sa else .none
    rx_bytes := wp.p_rxbytes
    tx_bytes := wp.p_txbytes
    last_handshake_time_sec := wp.p_sec
    last_handshake_time_nsec := wp.p_nsec
    allowedips := wp.p_aips.map openbsd_parse_aip }

/-- C7 counterexample: a BSD kernel record with `WG_PEER_HAS_PSK` set and an
all-zero preshared key decodes to a peer whose `HAS_PRESHARED_KEY` flag is
set while its key is all-zero — the claimed invariant does not hold on the
BSD ioctl path. -/
theorem C7_counterexample_bsd_copies_flag :
    (openbsd_parse_peer { hasPsk := true }).flags.hasPresharedKey = true ∧
    key_is_zero (openbsd_parse_peer { hasPsk := true }).preshared_key = true := by
  refine ⟨by decide, by decide⟩


/-! ## Claim C7: the preshared-key presence flag versus all-zero keys

The userspace and netlink decoders set the presence flag only after a
`!key_is_zero(...)` check — but they *or* the flag into whatever was already
there while overwriting the stored key unconditionally, so a second
preshared-key record carrying an all-zero key would leave the flag set next
to a zero key.  The invariant therefore holds for responses carrying at most
one preshared-key record per peer.  The OpenBSD ioctl path performs no check
at all (see the counterexample): it copies the kernel flag verbatim, merely
preserving the invariant if the kernel maintains it. -/

/-- The claimed per-peer invariant: the presence flag is set only if the
decoded preshared key is not all-zero. -/
def pskOk (p : WgPeer) : Bool :=
  !p.flags.hasPresharedKey || !key_is_zero p.preshared_key

theorem pskOk_spec {p : WgPeer} (h : pskOk p = true)
    (hf : p.flags.hasPresharedKey = true) : key_is_zero p.preshared_key = false := by
  rw [pskOk, hf] at h
  simp only [Bool.not_true, Bool.false_or, Bool.not_eq_true'] at h
  exact h

/-- The lines of a stream exactly as the getline loop delivers them:
complete lines keep their newline, a trailing partial line is delivered
bare. -/
def uLines (acc : List Char) : List Char → List (List Char)
  | [] =>
    (match acc with
     | [] => []
     | _ :: _ => [acc])
  | c :: rest =>
    if c = '\n' then (acc ++ ['\n']) :: uLines [] rest
    else uLines (acc ++ [c]) rest

/-- The per-section `seen` bit one dispatched key updates: `public_key`
starts a new section, `preshared_key` marks the current one. -/
def seenAfter (key : List Char) (seen : Bool) : Bool :=
  if key = "public_key".toList then false
  else if key = "preshared_key".toList then true
  else seen

/-- The `seen` update a whole line induces (its key is the `=`-split). -/
def lineSeenAfter (l : List Char) (seen : Bool) : Bool :=
  match splitAtChar '=' l with
  | none => seen
  | some kv => seenAfter kv.1 seen

/-- "At most one `preshared_key=` line per peer section": scan the lines,
resetting at each `public_key=` line; `seen` records whether the current
section already carried one. -/
def pskOnceLines : Bool → List (List Char) → Bool
  | _, [] => true
  | seen, l :: ls =>
    match splitAtChar '=' l with
    | none => pskOnceLines seen ls
    | some kv =>
      if kv.1 = "public_key".toList then pskOnceLines false ls
      else if kv.1 = "preshared_key".toList then !seen && pskOnceLines true ls
      else pskOnceLines seen ls

theorem pskOnceLines_cons {seen : Bool} {l : List Char} {ls : List (List Char)}
    (h : pskOnceLines seen (l :: ls) = true) :
    pskOnceLines (lineSeenAfter l seen) ls = true ∧
    (∀ kv, splitAtChar '=' l = some kv → kv.1 = "preshared_key".toList → seen = false) := by
  rw [pskOnceLines] at h
  cases hsp : splitAtChar '=' l with
  | none =>
    rw [hsp] at h
    refine ⟨?_, fun kv hkv => Option.noConfusion hkv⟩
    simp only [lineSeenAfter, hsp]
    exact h
  | some kv =>
    rw [hsp] at h
    have h' : (if kv.1 = "public_key".toList then pskOnceLines false ls
        else if kv.1 = "preshared_key".toList then !seen && pskOnceLines true ls
        else pskOnceLines seen ls) = true := h
    have hls : lineSeenAfter l seen = seenAfter kv.1 seen := by
      simp only [lineSeenAfter, hsp]
    rw [hls, seenAfter]
    by_cases h1 : kv.1 = "public_key".toList
    · rw [if_pos h1] at h' ⊢
      refine ⟨h', ?_⟩
      intro kv' hkv' h2
      injection hkv' with hkv'
      subst hkv'
      rw [h1] at h2
      exact absurd h2 (by decide)
    · rw [if_neg h1] at h' ⊢
      by_cases h2 : kv.1 = "preshared_key".toList
      · rw [if_pos h2] at h' ⊢
        simp only [Bool.and_eq_true, Bool.not_eq_true'] at h'
        exact ⟨h'.2, fun kv' hkv' hx => h'.1⟩
      · rw [if_neg h2] at h' ⊢
        refine ⟨h', ?_⟩
        intro kv' hkv' hx
        injection hkv' with hkv'
        subst hkv'
        exact absurd hx h2

/-- Decoder-state invariant: every completed peer satisfies `pskOk`; the
current peer does too, and its flag can only be set if the current section
already saw a `preshared_key=` line. -/
def PskOkS (seen : Bool) (st : UState) : Prop :=
  (∀ q ∈ st.donePeers, pskOk q = true) ∧
  (∀ p, st.cur = some p → pskOk p = true ∧ (p.flags.hasPresharedKey = true → seen = true))

theorem PskOkS.mono_true {seen : Bool} {st : UState} (h : PskOkS seen st) :
    PskOkS true st :=
  ⟨h.1, fun p hp => ⟨(h.2 p hp).1, fun _ => rfl⟩⟩

theorem PskOkS.append_cur {seen : Bool} {st : UState} (h : PskOkS seen st) :
    ∀ q ∈ st.donePeers ++ st.cur.toList, pskOk q = true := by
  intro q hq
  rcases List.mem_append.mp hq with hq | hq
  · exact h.1 q hq
  · cases hc : st.cur with
    | none => rw [hc] at hq; exact absurd hq (by simp)
    | some p =>
      rw [hc] at hq
      simp only [Option.toList, List.mem_singleton] at hq
      subst hq
      exact (h.2 q hc).1

theorem PskOkS.finalPeers {seen : Bool} {st : UState} (h : PskOkS seen st) :
    ∀ q ∈ st.finalDev.peers, pskOk q = true := by
  intro q hq
  exact h.append_cur q hq

theorem PskOkS.ofParts {seen : Bool} {st st' : UState} {p p' : WgPeer} (h : PskOkS seen st)
    (hp : st.cur = some p)
    (hdone : st'.donePeers = st.donePeers) (hcur : st'.cur = some p')
    (hpsk : p'.preshared_key = p.preshared_key)
    (hfl : p'.flags.hasPresharedKey = p.flags.hasPresharedKey) :
    PskOkS seen st' := by
  refine ⟨fun q hq => h.1 q (hdone ▸ hq), ?_⟩
  intro q hq
  rw [hcur] at hq
  injection hq with hq
  subst hq
  refine ⟨?_, fun hf => (h.2 p hp).2 (hfl ▸ hf)⟩
  have hpk : pskOk p' = pskOk p := by rw [pskOk, pskOk, hpsk, hfl]
  rw [hpk]
  exact (h.2 p hp).1

/-- Invariant transport along one dispatched key, by outcome: a continuing
step carries the updated `seen`; a `break` or `goto err` ends the loop, for
which the trivial `seen := true` always suffices. -/
def PskStep (seen : Bool) : UStep → Prop
  | .cont st => PskOkS seen st
  | .brk st => PskOkS true st
  | .gotoErr st => PskOkS true st

theorem kvPrivateKey_psk (ext : Ext) (st : UState) (value : List Char) (seen : Bool)
    (h : PskOkS seen st) : PskStep seen (kvPrivateKey ext st value) := by
  rw [kvPrivateKey]
  cases ext.keyFromHex value with
  | none => exact h.mono_true
  | some k => exact ⟨h.1, h.2⟩

theorem kvListenPort_psk (st : UState) (value : List Char) (seen : Bool)
    (h : PskOkS seen st) : PskStep seen (kvListenPort st value) := by
  rw [kvListenPort]
  cases NUMparse 0xffff value with
  | none => exact h.mono_true
  | some n => exact ⟨h.1, h.2⟩

theorem kvFwmark_psk (st : UState) (value : List Char) (seen : Bool)
    (h : PskOkS seen st) : PskStep seen (kvFwmark st value) := by
  rw [kvFwmark]
  cases NUMparse 0xffffffff value with
  | none => exact h.mono_true
  | some n => exact ⟨h.1, h.2⟩

theorem kvErrno_psk (st : UState) (value : List Char) (seen : Bool)
    (h : PskOkS seen st) : PskStep seen (kvErrno st value) := by
  rw [kvErrno]
  cases NUMparse 0x7fffffff value with
  | none => exact h.mono_true
  | some n => exact ⟨h.1, h.2⟩

theorem kvPublicKey_psk (ext : Ext) (st : UState) (value : List Char) (seen : Bool)
    (h : PskOkS seen st) : PskStep false (kvPublicKey ext st value) := by
  have hdone := h.append_cur
  simp only [kvPublicKey]
  cases ext.keyFromHex value with
  | none =>
    refine ⟨hdone, ?_⟩
    intro p hp
    injection hp with hp
    subst hp
    exact ⟨rfl, fun _ => rfl⟩
  | some k =>
    refine ⟨hdone, ?_⟩
    intro p hp
    injection hp with hp
    subst hp
    exact ⟨rfl, fun hc => Bool.noConfusion hc⟩

theorem kvPresharedKey_psk (ext : Ext) (st : UState) (p : WgPeer) (value : List Char)
    (h : PskOkS false st) (hp : st.cur = some p) :
    PskStep true (kvPresharedKey ext st p value) := by
  have hflag : p.flags.hasPresharedKey = false := by
    cases hfl : p.flags.hasPresharedKey with
    | false => rfl
    | true => exact absurd ((h.2 p hp).2 hfl) (by decide)
  rw [kvPresharedKey]
  cases ext.keyFromHex value with
  | none => exact h.mono_true
  | some k =>
    refine ⟨h.1, ?_⟩
    intro q hq
    injection hq with hq
    subst hq
    refine ⟨?_, fun _ => rfl⟩
    rw [pskOk]
    simp only [hflag, Bool.false_or]
    cases key_is_zero k <;> rfl

theorem kvEndpointResolve_psk (ext : Ext) (st : UState) (p : WgPeer)
    (host port : List Char) (seen : Bool) (h : PskOkS seen st) (hp : st.cur = some p) :
    PskStep seen (kvEndpointResolve ext st p host port) := by
  rw [kvEndpointResolve]
  cases ext.gai host port with
  | fail => exact ⟨h.1, h.mono_true.2⟩
  | ok4 b => exact h.ofParts hp rfl rfl rfl rfl
  | ok6 b => exact h.ofParts hp rfl rfl rfl rfl
  | other => exact h.mono_true

theorem kvEndpoint_psk (ext : Ext) (st : UState) (p : WgPeer) (value : List Char)
    (seen : Bool) (h : PskOkS seen st) (hp : st.cur = some p) :
    PskStep seen (kvEndpoint ext st p value) := by
  unfold kvEndpoint
  repeat' split
  all_goals first
    | exact kvEndpointResolve_psk ext st p _ _ seen h hp
    | exact h.mono_true

theorem kvKeepalive_psk (st : UState) (p : WgPeer) (value : List Char)
    (seen : Bool) (h : PskOkS seen st) (hp : st.cur = some p) :
    PskStep seen (kvKeepalive st p value) := by
  rw [kvKeepalive]
  cases NUMparse 0xffff value with
  | none => exact h.mono_true
  | some n => exact h.ofParts hp rfl rfl rfl rfl

theorem kvAllowedIP_psk (ext : Ext) (st : UState) (p : WgPeer) (value : List Char)
    (seen : Bool) (h : PskOkS seen st) (hp : st.cur = some p) :
    PskStep seen (kvAllowedIP ext st p value) := by
  have key : ∀ aip : WgAllowedIP,
      PskOkS seen { st with cur := some { p with allowedips := p.allowedips ++ [aip] },
                            allocs := st.allocs + 1 } :=
    fun aip => h.ofParts hp rfl rfl rfl rfl
  unfold kvAllowedIP
  simp only []
  repeat' split
  all_goals first
    | exact h.mono_true
    | exact (key _).mono_true
    | exact key _

theorem kvHsSec_psk (st : UState) (p : WgPeer) (value : List Char)
    (seen : Bool) (h : PskOkS seen st) (hp : st.cur = some p) :
    PskStep seen (kvHsSec st p value) := by
  rw [kvHsSec]
  cases NUMparse 0x7fffffffffffffff value with
  | none => exact h.mono_true
  | some n => exact h.ofParts hp rfl rfl rfl rfl

theorem kvHsNsec_psk (st : UState) (p : WgPeer) (value : List Char)
    (seen : Bool) (h : PskOkS seen st) (hp : st.cur = some p) :
    PskStep seen (kvHsNsec st p value) := by
  rw [kvHsNsec]
  cases NUMparse 0x7fffffffffffffff value with
  | none => exact h.mono_true
  | some n => exact h.ofParts hp rfl rfl rfl rfl

theorem kvRxBytes_psk (st : UState) (p : WgPeer) (value : List Char)
    (seen : Bool) (h : PskOkS seen st) (hp : st.cur = some p) :
    PskStep seen (kvRxBytes st p value) := by
  rw [kvRxBytes]
  cases NUMparse 0xffffffffffffffff value with
  | none => exact h.mono_true
  | some n => exact h.ofParts hp rfl rfl rfl rfl

theorem kvTxBytes_psk (st : UState) (p : WgPeer) (value : List Char)
    (seen : Bool) (h : PskOkS seen st) (hp : st.cur = some p) :
    PskStep seen (kvTxBytes st p value) := by
  rw [kvTxBytes]
  cases NUMparse 0xffffffffffffffff value with
  | none => exact h.mono_true
  | some n => exact h.ofParts hp rfl rfl rfl rfl

set_option maxHeartbeats 2000000 in
theorem processKV_psk (ext : Ext) (st : UState) (key value : List Char) (seen : Bool)
    (h : PskOkS seen st)
    (honce : key = "preshared_key".toList → st.cur ≠ none → seen = false) :
    PskStep (seenAfter key seen) (processKV ext st key value) := by
  by_cases hpub : key = "public_key".toList
  · subst hpub
    rw [show seenAfter "public_key".toList seen = false from by rw [seenAfter, if_pos rfl]]
    unfold processKV
    rw [if_neg (fun hc => absurd hc.2 (by decide)),
        if_neg (fun hc => absurd hc.2 (by decide)),
        if_neg (fun hc => absurd hc.2 (by decide)),
        if_pos rfl]
    exact kvPublicKey_psk ext st value seen h
  · by_cases hpsk : key = "preshared_key".toList
    · subst hpsk
      rw [show seenAfter "preshared_key".toList seen = true from by
        rw [seenAfter, if_neg (by decide), if_pos rfl]]
      unfold processKV
      rw [if_neg (fun hc => absurd hc.2 (by decide)),
          if_neg (fun hc => absurd hc.2 (by decide)),
          if_neg (fun hc => absurd hc.2 (by decide)),
          if_neg (by decide)]
      cases hcur : st.cur with
      | none =>
        simp only [hcur]
        rw [if_neg (by decide)]
        exact h.mono_true
      | some p =>
        have hseen : seen = false :=
          honce rfl (by rw [hcur]; exact fun hc => Option.noConfusion hc)
        subst hseen
        simp only [hcur]
        rw [if_pos trivial]
        exact kvPresharedKey_psk ext st p value h hcur
    · rw [show seenAfter key seen = seen from by rw [seenAfter, if_neg hpub, if_neg hpsk]]
      unfold processKV
      cases hcur : st.cur with
      | none =>
        simp only [hcur, eq_self_iff_true, true_and]
        repeat' split
        all_goals first
          | exact kvPrivateKey_psk ext st value seen h
          | exact kvListenPort_psk st value seen h
          | exact kvFwmark_psk st value seen h
          | exact kvErrno_psk st value seen h
          | exact h
          | (exfalso; exact hpub (by assumption))
      | some p =>
        simp only [hcur]
        rw [if_neg (fun hc => Option.noConfusion hc.1), if_neg (fun hc => Option.noConfusion hc.1),
            if_neg (fun hc => Option.noConfusion hc.1), if_neg hpub]
        repeat' split
        all_goals first
          | exact kvEndpoint_psk ext st p value seen h hcur
          | exact kvKeepalive_psk st p value seen h hcur
          | exact kvAllowedIP_psk ext st p value seen h hcur
          | exact kvHsSec_psk st p value seen h hcur
          | exact kvHsNsec_psk st p value seen h hcur
          | exact kvRxBytes_psk st p value seen h hcur
          | exact kvTxBytes_psk st p value seen h hcur
          | exact kvErrno_psk st value seen h
          | exact h
          | (exfalso; exact hpsk (by assumption))

theorem uProcessLine_psk (ext : Ext) (st : UState) (line : List Char) (seen : Bool)
    (h : PskOkS seen st)
    (honce : ∀ kv, splitAtChar '=' line = some kv →
      kv.1 = "preshared_key".toList → seen = false) :
    PskStep (lineSeenAfter line seen) (uProcessLine ext st line) := by
  unfold uProcessLine
  by_cases hbl : line = ['\n']
  · rw [if_pos hbl]
    exact h.mono_true
  · rw [if_neg hbl]
    cases hsp : splitAtChar '=' line with
    | none => exact h.mono_true
    | some kv =>
      rw [show lineSeenAfter line seen = seenAfter kv.1 seen from by
        simp only [lineSeenAfter, hsp]]
      show PskStep (seenAfter kv.1 seen)
        (if kv.2.getLast? ≠ some '\n' then UStep.brk st else processKV ext st kv.1 kv.2.dropLast)
      by_cases hnl : kv.2.getLast? ≠ some '\n'
      · rw [if_pos hnl]
        exact h.mono_true
      · rw [if_neg hnl]
        exact processKV_psk ext st kv.1 kv.2.dropLast seen h (fun hk _ => honce kv hsp hk)

theorem uLoopAcc_psk (ext : Ext) :
    ∀ (rest acc : List Char) (st : UState) (seen : Bool),
      PskOkS seen st → pskOnceLines seen (uLines acc rest) = true →
      ∀ q ∈ (uLoopAcc ext st acc rest).1.finalDev.peers, pskOk q = true := by
  intro rest
  induction rest with
  | nil =>
    intro acc st seen h hlines
    cases acc with
    | nil => exact h.finalPeers
    | cons c acc' =>
      have hl2 : pskOnceLines seen ((c :: acc') :: []) = true := hlines
      have hstep := uProcessLine_psk ext st (c :: acc') seen h (pskOnceLines_cons hl2).2
      cases hps : uProcessLine ext st (c :: acc') with
      | cont st' =>
        rw [hps] at hstep
        rw [show uLoopAcc ext st (c :: acc') [] = (st', -EPROTO) from by rw [uLoopAcc, hps]]
        exact hstep.finalPeers
      | brk st' =>
        rw [hps] at hstep
        rw [show uLoopAcc ext st (c :: acc') [] = (st', -EPROTO) from by rw [uLoopAcc, hps]]
        exact hstep.finalPeers
      | gotoErr st' =>
        rw [hps] at hstep
        rw [show uLoopAcc ext st (c :: acc') [] = (st', st'.ret) from by rw [uLoopAcc, hps]]
        exact hstep.finalPeers
  | cons c rest ih =>
    intro acc st seen h hlines
    by_cases hc : c = '\n'
    · subst hc
      have hl2 : pskOnceLines seen ((acc ++ ['\n']) :: uLines [] rest) = true := by
        rw [show uLines acc ('\n' :: rest) = (acc ++ ['\n']) :: uLines [] rest from by
          rw [uLines, if_pos rfl]] at hlines
        exact hlines
      obtain ⟨hl3, honce⟩ := pskOnceLines_cons hl2
      have hstep := uProcessLine_psk ext st (acc ++ ['\n']) seen h honce
      cases hps : uProcessLine ext st (acc ++ ['\n']) with
      | cont st' =>
        rw [hps] at hstep
        rw [show uLoopAcc ext st acc ('\n' :: rest) = uLoopAcc ext st' [] rest from by
          rw [uLoopAcc, if_pos rfl, hps]]
        exact ih [] st' _ hstep hl3
      | brk st' =>
        rw [hps] at hstep
        rw [show uLoopAcc ext st acc ('\n' :: rest) = (st', -EPROTO) from by
          rw [uLoopAcc, if_pos rfl, hps]]
        exact hstep.finalPeers
      | gotoErr st' =>
        rw [hps] at hstep
        rw [show uLoopAcc ext st acc ('\n' :: rest) = (st', st'.ret) from by
          rw [uLoopAcc, if_pos rfl, hps]]
        exact hstep.finalPeers
    · rw [show uLines acc (c :: rest) = uLines (acc ++ [c]) rest from by
        rw [uLines, if_neg hc]] at hlines
      rw [show uLoopAcc ext st acc (c :: rest) = uLoopAcc ext st (acc ++ [c]) rest from by
        rw [uLoopAcc, if_neg hc]]
      exact ih (acc ++ [c]) st seen h hlines

/-! Netlink side: duplicate `WGPEER_A_PRESHARED_KEY` attributes inside one
peer nest are the analogous hazard, so the hypothesis bounds them by one. -/

/-- Is this attribute a valid-length preshared-key attribute? -/
def attrIsPsk : NlAttr → Bool
  | .data t b => decide (t = WGPEER_A_PRESHARED_KEY) && decide (b.length = 32)
  | .nest _ _ => false

/-- Number of valid-length preshared-key attributes in a peer nest. -/
def nlPskCount (as : List NlAttr) : Nat := (as.filter attrIsPsk).length

theorem nlPskCount_cons (a : NlAttr) (as : List NlAttr) :
    nlPskCount (a :: as) = (if attrIsPsk a then 1 else 0) + nlPskCount as := by
  rw [nlPskCount, nlPskCount, List.filter_cons]
  split
  · rw [List.length_cons]; omega
  · omega

theorem parse_peer_psk_step (st : WgPeer × Nat) (a : NlAttr)
    (h1 : pskOk st.1 = true)
    (h2 : attrIsPsk a = true → st.1.flags.hasPresharedKey = false) :
    pskOk (parse_peer st a).1.1 = true ∧
    ((parse_peer st a).1.1.flags.hasPresharedKey = true →
      st.1.flags.hasPresharedKey = true ∨ attrIsPsk a = true) := by
  cases a with
  | nest t c =>
    by_cases hT : t = WGPEER_A_ALLOWEDIPS
    · have he : parse_peer st (.nest t c) = foldCB parse_allowedips st c := by
        show (if t = WGPEER_A_ALLOWEDIPS then foldCB parse_allowedips st c else (st, 1)) = _
        rw [if_pos hT]
      rw [he]
      have hpres := foldCB_preserve
        (fun s : WgPeer × Nat =>
          s.1.preshared_key = st.1.preshared_key ∧ s.1.flags = st.1.flags)
        parse_allowedips
        (fun s a hs => by
          unfold parse_allowedips
          simp only []
          repeat' split
          all_goals exact ⟨hs.1, hs.2⟩)
        c st ⟨rfl, rfl⟩
      constructor
      · rw [pskOk, hpres.1, hpres.2, ← pskOk]
        exact h1
      · intro hf
        rw [hpres.2] at hf
        exact Or.inl hf
    · have he : parse_peer st (.nest t c) = (st, 1) := by
        show (if t = WGPEER_A_ALLOWEDIPS then foldCB parse_allowedips st c else (st, 1)) = _
        rw [if_neg hT]
      rw [he]
      exact ⟨h1, fun hf => Or.inl hf⟩
  | data t b =>
    have he : parse_peer st (.data t b) =
        (if t = WGPEER_A_PUBLIC_KEY then
           ((if b.length = 32 then
               ({ st.1 with
                  public_key := b
                  flags := { st.1.flags with hasPublicKey := true } }, st.2)
             else st), 1)
         else if t = WGPEER_A_PRESHARED_KEY then
           ((if b.length = 32 then
               ({ st.1 with
                  preshared_key := b
                  flags := { st.1.flags with
                    hasPresharedKey := st.1.flags.hasPresharedKey || ! key_is_zero b } },
                 st.2)
             else st), 1)
         else if t = WGPEER_A_ENDPOINT then
           ((if b.length < 16 then st
             else if decLE (b.take 2) = AF_INET ∧ b.length = 16 then
               ({ st.1 with endpoint := .v4 b }, st.2)
             else if decLE (b.take 2) = AF_INET6 ∧ b.length = 28 then
               ({ st.1 with endpoint := .v6 b }, st.2)
             else st), 1)
         else if t = WGPEER_A_PERSISTENT_KEEPALIVE_INTERVAL then
           ((if b.length = 2 then
               ({ st.1 with persistent_keepalive_interval := decLE b }, st.2) else st), 1)
         else if t = WGPEER_A_LAST_HANDSHAKE_TIME then
           ((if b.length = 16 then
               ({ st.1 with
                  last_handshake_time_sec := decLE (b.take 8)
                  last_handshake_time_nsec := decLE (b.drop 8) }, st.2)
             else st), 1)
         else if t = WGPEER_A_RX_BYTES then
           ((if b.length = 8 then ({ st.1 with rx_bytes := decLE b }, st.2) else st), 1)
         else if t = WGPEER_A_TX_BYTES then
           ((if b.length = 8 then ({ st.1 with tx_bytes := decLE b }, st.2) else st), 1)
         else (st, 1)) := rfl
    rw [he]
    by_cases ht : t = WGPEER_A_PRESHARED_KEY
    · subst ht
      rw [if_neg (by decide), if_pos rfl]
      by_cases hb : b.length = 32
      · rw [if_pos hb]
        have hpa : attrIsPsk (.data WGPEER_A_PRESHARED_KEY b) = true := by
          rw [attrIsPsk, hb]
          decide
        have hfl : st.1.flags.hasPresharedKey = false := h2 hpa
        refine ⟨?_, fun _ => Or.inr hpa⟩
        show (!(st.1.flags.hasPresharedKey || ! key_is_zero b) || ! key_is_zero b) = true
        rw [hfl]
        cases key_is_zero b <;> rfl
      · rw [if_neg hb]
        exact ⟨h1, fun hf => Or.inl hf⟩
    · repeat' split
      all_goals first
        | exact ⟨h1, fun hf => Or.inl hf⟩
        | (exfalso; exact ht (by assumption))

theorem foldCB_parse_peer_psk :
    ∀ (as : List NlAttr) (st : WgPeer × Nat),
      pskOk st.1 = true →
      (st.1.flags.hasPresharedKey = true → nlPskCount as = 0) →
      nlPskCount as ≤ 1 →
      pskOk (foldCB parse_peer st as).1.1 = true := by
  intro as
  induction as with
  | nil => intro st h1 _ _; exact h1
  | cons a rest ih =>
    intro st h1 h2 h3
    rw [foldCB]
    by_cases hpa : attrIsPsk a = true
    · have hr0 : nlPskCount rest = 0 := by
        have := nlPskCount_cons a rest
        rw [if_pos hpa] at this
        omega
      have hflag : st.1.flags.hasPresharedKey = false := by
        cases hf : st.1.flags.hasPresharedKey with
        | false => rfl
        | true =>
          have := h2 hf
          rw [nlPskCount_cons a rest, if_pos hpa] at this
          omega
      have hstep := parse_peer_psk_step st a h1 (fun _ => hflag)
      split
      · exact hstep.1
      · exact ih _ hstep.1 (fun _ => hr0) (by omega)
    · have hpaf : attrIsPsk a = false := by
        cases hx : attrIsPsk a with
        | false => rfl
        | true => exact absurd hx hpa
      have hcnt : nlPskCount (a :: rest) = nlPskCount rest := by
        rw [nlPskCount_cons a rest, hpaf]
        simp
      have hstep := parse_peer_psk_step st a h1 (fun hc => absurd hc hpa)
      split
      · exact hstep.1
      · refine ih _ hstep.1 ?_ (by omega)
        intro hf
        rcases hstep.2 hf with hf' | hf'
        · rw [← hcnt]
          exact h2 hf'
        · rw [hpaf] at hf'
          exact absurd hf' (by decide)

theorem mem_append_single {α : Type} {l : List α} {x q : α} (hq : q ∈ l ++ [x]) :
    q ∈ l ∨ q = x := by
  rcases List.mem_append.mp hq with h | h
  · exact Or.inl h
  · rw [List.mem_singleton] at h
    exact Or.inr h

theorem parse_peers_psk (st : WgDevice × Nat) (a : NlAttr)
    (hwf : nlPskCount a.children ≤ 1)
    (h : ∀ q ∈ st.1.peers, pskOk q = true) :
    ∀ q ∈ (parse_peers st a).1.1.peers, pskOk q = true := by
  have hp := foldCB_parse_peer_psk a.children (({} : WgPeer), st.2 + 1) (by rfl)
    (fun hf => Bool.noConfusion hf) hwf
  unfold parse_peers
  simp only []
  repeat' split
  all_goals exact fun q hq => (mem_append_single hq).elim (h q) (fun e => e.symm ▸ hp)

theorem foldCB_preserve_mem {σ : Type} (P : σ → Prop) (Q : NlAttr → Prop)
    (f : σ → NlAttr → σ × Int)
    (h : ∀ s a, Q a → P s → P (f s a).1) :
    ∀ (l : List NlAttr) (s : σ), (∀ a ∈ l, Q a) → P s → P (foldCB f s l).1 := by
  intro l
  induction l with
  | nil => intro s _ hs; exact hs
  | cons a as ih =>
    intro s hQ hs
    rw [foldCB]
    split
    · exact h s a (hQ a (List.mem_cons_self a as)) hs
    · exact ih _ (fun x hx => hQ x (List.mem_cons_of_mem a hx))
        (h s a (hQ a (List.mem_cons_self a as)) hs)

theorem parse_device_psk (st : WgDevice × Nat) (a : NlAttr)
    (hwf : ∀ pa ∈ a.children, nlPskCount pa.children ≤ 1)
    (h : ∀ q ∈ st.1.peers, pskOk q = true) :
    ∀ q ∈ (parse_device st a).1.1.peers, pskOk q = true := by
  cases a with
  | nest t c =>
    by_cases hT : t = WGDEVICE_A_PEERS
    · have he : parse_device st (.nest t c) = foldCB parse_peers st c := by
        show (if t = WGDEVICE_A_PEERS then foldCB parse_peers st c else (st, 1)) = _
        rw [if_pos hT]
      rw [he]
      exact foldCB_preserve_mem (fun s : WgDevice × Nat => ∀ q ∈ s.1.peers, pskOk q = true)
        (fun pa => nlPskCount pa.children ≤ 1) parse_peers
        (fun s pa hpa hs => parse_peers_psk s pa hpa hs) c st hwf h
    · have he : parse_device st (.nest t c) = (st, 1) := by
        show (if t = WGDEVICE_A_PEERS then foldCB parse_peers st c else (st, 1)) = _
        rw [if_neg hT]
      rw [he]
      exact h
  | data t b =>
    have hpeers : (parse_device st (.data t b)).1.1.peers = st.1.peers := by
      unfold parse_device
      simp only []
      repeat' split
      all_goals rfl
    rw [hpeers]
    exact h

theorem runDeviceMsgs_psk (msgs : List (List NlAttr)) (st : WgDevice × Nat)
    (hwf : ∀ m ∈ msgs, ∀ a ∈ m, ∀ pa ∈ a.children, nlPskCount pa.children ≤ 1)
    (h : ∀ q ∈ st.1.peers, pskOk q = true) :
    ∀ q ∈ (runDeviceMsgs st msgs).1.1.peers, pskOk q = true := by
  induction msgs generalizing st with
  | nil => exact h
  | cons m ms ih =>
    rw [runDeviceMsgs]
    have hm := foldCB_preserve_mem (fun s : WgDevice × Nat => ∀ q ∈ s.1.peers, pskOk q = true)
      (fun a => ∀ pa ∈ a.children, nlPskCount pa.children ≤ 1) parse_device
      (fun s a ha hs => parse_device_psk s a ha hs) m st
      (fun a ha => hwf m (List.mem_cons_self m ms) a ha) h
    split
    · exact hm
    · exact ih _ (fun m' hm' => hwf m' (List.mem_cons_of_mem m hm')) hm

theorem coalesceSpec_preserve (P : WgPeer → Prop)
    (hP : ∀ p aips, P p → P { p with allowedips := aips }) :
    ∀ l, (∀ q ∈ l, P q) → ∀ q ∈ coalesceSpec l, P q := by
  intro l
  induction l using coalesceSpec.induct with
  | case1 =>
    intro _ q hq
    rw [coalesceSpec] at hq
    exact absurd hq (by simp)
  | case2 p rest ih =>
    intro hl q hq
    rw [coalesceSpec] at hq
    rcases List.mem_cons.mp hq with hq | hq
    · subst hq
      exact hP p _ (hl p (List.mem_cons_self p rest))
    · refine ih ?_ q hq
      intro x hx
      exact hl x (List.mem_cons_of_mem p ((List.dropWhile_sublist _).subset hx))

/-- C7 (amended): the preshared-key presence flag is set only next to a nonzero key,
for the userspace text GET on streams carrying at most one `preshared_key=`
line per peer section, and for the Linux netlink GET on replies carrying at
most one valid preshared-key attribute per peer nest (both kernels send
exactly one); the OpenBSD ioctl conversion performs no zero-key check — it
copies the kernel flag and key verbatim, so it preserves the invariant only
if the kernel maintains it (see the counterexample for its violation). -/
theorem C7_psk_flag_only_if_nonzero :
    (∀ (ext : Ext) (iface stream : List Char) (dev : WgDevice) (n : Nat),
        pskOnceLines false (uLines [] stream) = true →
        userspace_get_device ext iface stream = .ok dev n →
        ∀ p ∈ dev.peers,
          p.flags.hasPresharedKey = true → key_is_zero p.preshared_key = false) ∧
    (∀ (iface : List Char) (msgs : List (List NlAttr)) (dev : WgDevice) (n : Nat),
        (∀ m ∈ msgs, ∀ a ∈ m, ∀ pa ∈ a.children, nlPskCount pa.children ≤ 1) →
        kernel_get_device iface msgs = .ok dev n →
        ∀ p ∈ dev.peers,
          p.flags.hasPresharedKey = true → key_is_zero p.preshared_key = false) ∧
    (∀ wp : WgPeerIoBsd,
        (openbsd_parse_peer wp).flags.hasPresharedKey = wp.hasPsk ∧
        (openbsd_parse_peer wp).preshared_key =
          (if wp.hasPsk then wp.p_psk else List.replicate 32 0)) := by
  refine ⟨?_, ?_, fun wp => ⟨rfl, rfl⟩⟩
  · intro ext iface stream dev n hyp hok
    have h0 : PskOkS false { dev := { name := iface.take 15 } } :=
      ⟨fun q hq => absurd hq (by simp), fun p hp => Option.noConfusion hp⟩
    have hloop := uLoopAcc_psk ext stream [] { dev := { name := iface.take 15 } } false h0 hyp
    simp only [userspace_get_device] at hok
    split at hok
    · exact URes.noConfusion hok
    · injection hok with h1 h2
      subst h1
      exact fun p hp hf => pskOk_spec (hloop p hp) hf
  · intro iface msgs dev n hwf hok
    have hrun := runDeviceMsgs_psk msgs ({}, 1) hwf
      (fun q hq => absurd hq (by simp))
    simp only [kernel_get_device] at hok
    split at hok
    · exact URes.noConfusion hok
    · injection hok with h1 h2
      subst h1
      intro p hp hf
      rw [coalesce_peers_eq_spec] at hp
      exact pskOk_spec
        (coalesceSpec_preserve (fun q => pskOk q = true) (fun p aips h => h) _ hrun p hp) hf


/-- C7 witness: the amended theorem applied to a concrete response stream
carrying one nonzero preshared-key line for its single peer — the decoded
peer has the flag set and its key is not all-zero. -/
theorem C7_witness :
    key_is_zero (({ flags := { hasPublicKey := true, hasPresharedKey := true },
                    public_key := 1 :: List.replicate 31 0,
                    preshared_key := 1 :: List.replicate 31 0 } : WgPeer)).preshared_key
      = false :=
  C7_psk_flag_only_if_nonzero.1 ext0 "wg0".toList
    "public_key=aa\npreshared_key=aa\nerrno=0\n\n".toList
    { name := "wg0".toList,
      peers := [{ flags := { hasPublicKey := true, hasPresharedKey := true },
                  public_key := 1 :: List.replicate 31 0,
                  preshared_key := 1 :: List.replicate 31 0 }] } 2
    (by decide) (by decide)
    { flags := { hasPublicKey := true, hasPresharedKey := true },
      public_key := 1 :: List.replicate 31 0,
      preshared_key := 1 :: List.replicate 31 0 }
    (by decide) (by decide)


/-! ## Claim C3: userspace interface discovery and liveness
(`userspace_has_wireguard_interface`, ipc.c lines 127-152, and
`userspace_get_wireguard_interfaces`, lines 154-182)

The filesystem and socket layer is an oracle world: which paths exist,
which are sockets, whether `socket(2)` succeeds, and what `connect(2)`
returns per path.  `snprintf` into `sun_path` cannot fail for the name
lengths at issue, so it is not modelled. -/

/-- Outcome of `connect(2)` on a path: success, failure with
`errno == ECONNREFUSED`, or failure with any other `errno`. -/
inductive ConnRes where
  | ok
  | refused
  | error
  deriving DecidableEq, Repr

/-- The oracle world: `present` is "`stat` succeeds", `isSock` is
`S_ISSOCK`, `socketOk` is "`socket(2)` succeeds", `conn` the result of
connecting to a path, `dirOk` is "`opendir(SOCK_PATH)` succeeds", and
`dirNames` the entries `readdir` yields, in order. -/
structure FsWorld where
  present : List Char → Bool
  isSock : List Char → Bool
  socketOk : Bool
  conn : List Char → ConnRes
  dirOk : Bool
  dirNames : List (List Char)

/-- `SOCK_PATH` = `RUNSTATEDIR "/wireguard/"` (ipc.c line 43);
`RUNSTATEDIR` is configured at build time, `/var/run` by default. -/
def SOCK_PATH : List Char := "/var/run/wireguard/".toList

def SOCK_SUFFIX : List Char := ".sock".toList

/-- The deterministic socket path derived from an interface name. -/
def sockPath (iface : List Char) : List Char := SOCK_PATH ++ iface ++ SOCK_SUFFIX

/-- `userspace_has_wireguard_interface`: result plus the list of paths it
`unlink`s.  Mirroring the C exactly: only a `connect` failure with
`ECONNREFUSED` reports false (after deleting the socket file); any other
`connect` failure falls through to `return true`. -/
def userspace_has_wireguard_interface (w : FsWorld) (iface : List Char) :
    Bool × List (List Char) :=
  if '/' ∈ iface then (false, [])
  else if w.present (sockPath iface) = false then (false, [])
  else if w.isSock (sockPath iface) = false then (false, [])
  else if w.socketOk = false then (false, [])
  else
    match w.conn (sockPath iface) with
    | .ok => (true, [])
    | .refused => (false, [sockPath iface])
    | .error => (true, [])

/-- The directory-entry filter (ipc.c lines 166-171): keep names longer
than `".sock"` whose tail is `".sock"`, stripped of that suffix. -/
def stripSuffix (name : List Char) : Option (List Char) :=
  if name.length ≤ SOCK_SUFFIX.length then none
  else if name.drop (name.length - SOCK_SUFFIX.length) = SOCK_SUFFIX then
    some (name.take (name.length - SOCK_SUFFIX.length))
  else none

/-- The `readdir` loop: names that pass the suffix filter and the liveness
check, in directory order, plus every path the liveness checks unlink. -/
def enumGo (w : FsWorld) : List (List Char) → List (List Char) × List (List Char)
  | [] => ([], [])
  | n :: ns =>
    match stripSuffix n with
    | none => enumGo w ns
    | some base =>
      let r := userspace_has_wireguard_interface w base
      let rest := enumGo w ns
      if r.1 then (base :: rest.1, r.2 ++ rest.2) else (rest.1, r.2 ++ rest.2)

/-- `userspace_get_wireguard_interfaces`: an absent socket directory means
zero interfaces. -/
def userspace_get_wireguard_interfaces (w : FsWorld) :
    List (List Char) × List (List Char) :=
  if w.dirOk = false then ([], []) else enumGo w w.dirNames

theorem has_iface_iff (w : FsWorld) (iface : List Char) :
    (userspace_has_wireguard_interface w iface).1 = true ↔
      ('/' ∉ iface ∧ w.present (sockPath iface) = true ∧
        w.isSock (sockPath iface) = true ∧ w.socketOk = true ∧
        w.conn (sockPath iface) ≠ ConnRes.refused) := by
  unfold userspace_has_wireguard_interface
  repeat' split
  all_goals simp_all [Bool.not_eq_false]

theorem has_iface_unlink (w : FsWorld) (iface : List Char) :
    (userspace_has_wireguard_interface w iface).2 =
      (if '/' ∉ iface ∧ w.present (sockPath iface) = true ∧
          w.isSock (sockPath iface) = true ∧ w.socketOk = true ∧
          w.conn (sockPath iface) = ConnRes.refused
       then [sockPath iface] else []) := by
  unfold userspace_has_wireguard_interface
  repeat' split
  all_goals simp_all [Bool.not_eq_false]

theorem enumGo_spec (w : FsWorld) : ∀ ns : List (List Char),
    enumGo w ns =
      ((ns.filterMap stripSuffix).filter
         (fun b => (userspace_has_wireguard_interface w b).1),
       (ns.filterMap stripSuffix).flatMap
         (fun b => (userspace_has_wireguard_interface w b).2)) := by
  intro ns
  induction ns with
  | nil => rfl
  | cons n ns ih =>
    rw [enumGo]
    cases hs : stripSuffix n with
    | none =>
      simp only [List.filterMap_cons, hs]
      exact ih
    | some b =>
      simp only [List.filterMap_cons, hs, List.filter_cons, List.flatMap_cons, ih]
      cases hr : (userspace_has_wireguard_interface w b).1 with
      | true => simp [hr]
      | false => simp [hr]

/-- The world of the spec's discovery test: a live `wg0.sock` and a
`stale.sock` whose connection is refused. -/
def c3DiscoveryWorld : FsWorld where
  present := fun _ => true
  isSock := fun _ => true
  socketOk := true
  conn := fun p => if p = sockPath "wg0".toList then .ok else .refused
  dirOk := true
  dirNames := ["wg0.sock".toList, "stale.sock".toList]

/-- A world where `connect` fails with an errno other than `ECONNREFUSED`
(e.g. `EACCES` or a timeout) for every path. -/
def c3ErrorWorld : FsWorld where
  present := fun _ => true
  isSock := fun _ => true
  socketOk := true
  conn := fun _ => .error
  dirOk := true
  dirNames := []

/-- C3 counterexample: in a world where the socket file exists and is a
socket but `connect` fails with an errno other than `ECONNREFUSED`, the
check reports the interface as present even though connecting to it did
not succeed — refuting the claimed "true if and only if ... connecting to
it succeeds". -/
theorem C3_counterexample_connect_error_reports_present :
    (userspace_has_wireguard_interface c3ErrorWorld "wg0".toList).1 = true ∧
    c3ErrorWorld.conn (sockPath "wg0".toList) ≠ ConnRes.ok := by
  refine ⟨by decide, by decide⟩

/-- C3 (amended): `userspace_has_wireguard_interface` returns true iff the
name has no `/`, the socket file at the deterministic derived path exists
and is a socket, socket creation succeeds, and `connect` does not fail with
`ECONNREFUSED` — connection success is NOT required, a `connect` failure
with any other errno still reports true (see the counterexample).  It
unlinks exactly the socket file of a refused connection, reporting false.
Enumeration keeps, in directory order, the suffix-stripped names passing
this liveness check and performs those checks' unlinks; an absent socket
directory yields zero interfaces; on the spec's discovery example it
returns exactly `wg0` and deletes `stale.sock`. -/
theorem C3_liveness_check_and_discovery :
    (∀ (w : FsWorld) (iface : List Char),
        (userspace_has_wireguard_interface w iface).1 = true ↔
          ('/' ∉ iface ∧ w.present (sockPath iface) = true ∧
            w.isSock (sockPath iface) = true ∧ w.socketOk = true ∧
            w.conn (sockPath iface) ≠ ConnRes.refused)) ∧
    (∀ (w : FsWorld) (iface : List Char),
        (userspace_has_wireguard_interface w iface).2 =
          (if '/' ∉ iface ∧ w.present (sockPath iface) = true ∧
              w.isSock (sockPath iface) = true ∧ w.socketOk = true ∧
              w.conn (sockPath iface) = ConnRes.refused
           then [sockPath iface] else [])) ∧
    (∀ w : FsWorld,
        userspace_get_wireguard_interfaces w =
          if w.dirOk = false then ([], [])
          else
            ((w.dirNames.filterMap stripSuffix).filter
               (fun b => (userspace_has_wireguard_interface w b).1),
             (w.dirNames.filterMap stripSuffix).flatMap
               (fun b => (userspace_has_wireguard_interface w b).2))) ∧
    userspace_get_wireguard_interfaces c3DiscoveryWorld =
      (["wg0".toList], [sockPath "stale".toList]) := by
  refine ⟨has_iface_iff, has_iface_unlink, ?_, by decide⟩
  intro w
  unfold userspace_get_wireguard_interfaces
  split
  · rfl
  · exact enumGo_spec w w.dirNames


/-! ## Claim C2: netlink SET chunking (`kernel_set_device`, ipc.c lines 548-680)

The message builder walks the peer chain; every peer-level and allowed-ip
attribute is appended with a `_check` put against `SOCKET_BUFFER_SIZE` and a
failed put cancels the current nest and sends the message, resuming at the
`peer`/`allowedip` cursor in a fresh message.  The buffer is modelled by a
byte budget with netlink's 4-byte attribute alignment; a peer entry's base
attributes are transactional (a failure cancels the whole peer nest —
`toobig_peers`) while allowed-ips commit one record at a time (a failure
keeps the records already placed — `toobig_allowedips`).  Entries carry a
ghost `src` index naming the source peer.  Device-level attributes (private
key, listen port, fwmark, replace-peers flag) are emitted only while the
`peer` cursor is NULL, i.e. in the first message; the one-shot per-peer
fields (preshared key, endpoint, keepalive, replace-allowed-ips flag) only
while the `allowedip` cursor is NULL, i.e. in a peer's first entry. -/

/-- One peer entry inside a message's `WGDEVICE_A_PEERS` nest.  `src` is the
ghost index of the source peer; `psk`/`endp`/`keepalive` are `none` (and
`replaceAips` false) when the corresponding attribute is not emitted. -/
structure SEntry where
  src : Nat
  pubkey : Key32
  psk : Option Key32
  endp : EndpointU
  keepalive : Option Nat
  replaceAips : Bool
  removeMe : Bool
  aips : List WgAllowedIP
  deriving DecidableEq, Repr

/-- The device-level attributes of a SET message. -/
structure SDevAttrs where
  privateKey : Option Key32
  listenPort : Option Nat
  fwmark : Option Nat
  replacePeers : Bool
  deriving DecidableEq, Repr

/-- One netlink SET message: optional device-level attributes and the peer
entries of its peers nest. -/
structure SMsg where
  devAttrs : Option SDevAttrs
  entries : List SEntry
  deriving DecidableEq, Repr

def devAttrsOf (d : WgDevice) : SDevAttrs :=
  { privateKey := if d.flags.hasPrivateKey then some d.private_key else none
    listenPort := if d.flags.hasListenPort then some d.listen_port else none
    fwmark := if d.flags.hasFwmark then some d.fwmark else none
    replacePeers := d.flags.replacePeers }

/-- Netlink attributes are padded to 4-byte alignment. -/
def align4 (n : Nat) : Nat := (n + 3) / 4 * 4

/-- Cost of one attribute: 4-byte header plus aligned payload. -/
def attrCost (payload : Nat) : Nat := 4 + align4 payload

/-- Cost of one allowed-ip nest: nest header, family u16, address (per
family), cidr u8 (ipc.c lines 624-638). -/
def aipCost (a : WgAllowedIP) : Nat :=
  4 + attrCost 2 +
    (if a.family = AF_INET then attrCost 4
     else if a.family = AF_INET6 then attrCost 16 else 0) +
    attrCost 1

/-- Cost of the one-shot fields emitted only in a peer's first entry
(ipc.c lines 596-611): preshared key, endpoint sockaddr, keepalive u16. -/
def oneShotCost (p : WgPeer) : Nat :=
  (if p.flags.hasPresharedKey then attrCost 32 else 0) +
  (match p.endpoint with
   | .v4 _ => attrCost 16
   | .v6 _ => attrCost 28
   | .none => 0) +
  (if p.flags.hasKeepalive then attrCost 2 else 0)

/-- Is the `WGPEER_A_FLAGS` attribute emitted (`if (flags)`)? `REMOVE_ME`
feeds it in every entry, `REPLACE_ALLOWEDIPS` only in a fresh one. -/
def peerFlagsPresent (p : WgPeer) (fresh : Bool) : Bool :=
  p.flags.removeMe || (fresh && p.flags.replaceAllowedIPs)

/-- Transactional cost of a peer entry up to its allowed-ips: peer nest
header, public key, one-shot fields when fresh, flags attribute. -/
def peerBaseCost (p : WgPeer) (fresh : Bool) : Nat :=
  4 + attrCost 32 + (if fresh then oneShotCost p else 0) +
    (if peerFlagsPresent p fresh then attrCost 4 else 0)

/-- Fixed per-message overhead: netlink + genetlink headers (20 bytes) and
the `WGDEVICE_A_IFNAME` strz attribute. -/
def headerCost (d : WgDevice) : Nat := 20 + attrCost (d.name.length + 1)

/-- Cost of the device-level attributes of the first message. -/
def devAttrsCost (d : WgDevice) : Nat :=
  (if d.flags.hasPrivateKey then attrCost 32 else 0) +
  (if d.flags.hasListenPort then attrCost 2 else 0) +
  (if d.flags.hasFwmark then attrCost 4 else 0) +
  (if d.flags.replacePeers then attrCost 4 else 0)

/-- A peer entry: `fresh` says the `allowedip` cursor was NULL, i.e. this is
the peer's first entry, carrying its one-shot fields. -/
def mkSEntry (i : Nat) (p : WgPeer) (fresh : Bool) (as : List WgAllowedIP) : SEntry :=
  { src := i
    pubkey := p.public_key
    psk := if fresh && p.flags.hasPresharedKey then some p.preshared_key else none
    endp := if fresh then p.endpoint else .none
    keepalive := if fresh && p.flags.hasKeepalive then some p.persistent_keepalive_interval
                 else none
    replaceAips := fresh && p.flags.replaceAllowedIPs
    removeMe := p.flags.removeMe
    aips := as }

/-- The inner allowed-ip loop (ipc.c lines 617-641): place records one at a
time until one does not fit; return the placed records, the remaining
suffix at the cursor (`none` when all fit), and the new buffer usage. -/
def buildAips (cap : Nat) :
    List WgAllowedIP → Nat → List WgAllowedIP × Option (List WgAllowedIP) × Nat
  | [], used => ([], none, used)
  | a :: rest, used =>
    if cap < used + aipCost a then ([], some (a :: rest), used)
    else
      let r := buildAips cap rest (used + aipCost a)
      (a :: r.1, r.2.1, r.2.2)

/-- The peer loop of one message (ipc.c lines 583-663): `i` is the ghost
index of the first remaining peer, `r` the resumed allowed-ip cursor for it
(`none` when its entry is fresh).  Returns the entries placed and the
resume state (`none` when the whole device fit). -/
def buildPeers (cap : Nat) :
    List WgPeer → Nat → Option (List WgAllowedIP) → Nat →
    List SEntry × Option (List WgPeer × Nat × Option (List WgAllowedIP))
  | [], _, _, _ => ([], none)
  | p :: rest, i, r, used =>
    let fresh := r.isNone
    if cap < used + peerBaseCost p fresh then ([], some (p :: rest, i, r))
    else
      let used1 := used + peerBaseCost p fresh
      let as := r.getD p.allowedips
      if as = [] then
        let rr := buildPeers cap rest (i + 1) none used1
        (mkSEntry i p fresh [] :: rr.1, rr.2)
      else if cap < used1 + 4 then
        ([mkSEntry i p fresh []], some (p :: rest, i, some as))
      else
        let ra := buildAips cap as (used1 + 4)
        match ra.2.1 with
        | some rem => ([mkSEntry i p fresh ra.1], some (p :: rest, i, some rem))
        | none =>
          let rr := buildPeers cap rest (i + 1) none ra.2.2
          (mkSEntry i p fresh ra.1 :: rr.1, rr.2)

/-- One message: headers and ifname always; device attributes only in the
first message (`!peer`); then the peers nest (4 bytes) and the peer loop.
A device without peers sends a single message (`goto send`). -/
def buildMsg (cap : Nat) (d : WgDevice)
    (ps : List WgPeer) (i : Nat) (r : Option (List WgAllowedIP)) (first : Bool) :
    SMsg × Option (List WgPeer × Nat × Option (List WgAllowedIP)) :=
  let used0 := headerCost d + (if first then devAttrsCost d else 0)
  let da := if first then some (devAttrsOf d) else none
  match ps with
  | [] => ({ devAttrs := da, entries := [] }, none)
  | _ :: _ =>
    let rp := buildPeers cap ps i r (used0 + 4)
    ({ devAttrs := da, entries := rp.1 }, rp.2)

/-- The `again` loop, with fuel: build messages until the resume state is
exhausted.  `none` models a configuration that can never make progress
(which the C code would spin on forever). -/
def buildLoop (cap : Nat) (d : WgDevice) :
    Nat → List WgPeer → Nat → Option (List WgAllowedIP) → Bool → Option (List SMsg)
  | 0, _, _, _, _ => none
  | fuel + 1, ps, i, r, first =>
    let m := buildMsg cap d ps i r first
    match m.2 with
    | none => some [m.1]
    | some st => (buildLoop cap d fuel st.1 st.2.1 st.2.2 false).map (fun ms => m.1 :: ms)

/-- `kernel_set_device`'s message sequence for a device. -/
def kernel_set_device_messages (cap : Nat) (d : WgDevice) (fuel : Nat) :
    Option (List SMsg) :=
  buildLoop cap d fuel d.peers 0 none true

/-- The canonical entry sequence from a resume point: one entry per
remaining peer, the first carrying the resumed cursor (its one-shot fields
already sent when `r ≠ none`), all later ones fresh and complete. -/
def canonFrom : Nat → Option (List WgAllowedIP) → List WgPeer → List SEntry
  | _, _, [] => []
  | i, r, p :: rest => mkSEntry i p r.isNone (r.getD p.allowedips) :: canonFrom (i + 1) none rest

/-- An entry carrying none of the one-shot fields. -/
def noFields (e : SEntry) : Prop :=
  e.psk = none ∧ e.endp = EndpointU.none ∧ e.keepalive = none ∧ e.replaceAips = false

/-- The adjacency discipline of the flattened entry sequence: source
indices never decrease, and an entry continuing the same peer as its
predecessor carries no one-shot fields. -/
def entryStep (a b : SEntry) : Prop :=
  a.src ≤ b.src ∧ (a.src = b.src → noFields b)

/-- Coalesce adjacent entries with the same source peer, concatenating
their allowed-ip runs (the first entry's fields win — later entries of a
run carry none, by `entryStep`). -/
def smergeAux (e : SEntry) : List SEntry → List SEntry
  | [] => [e]
  | f :: rest =>
    if e.src = f.src then smergeAux { e with aips := e.aips ++ f.aips } rest
    else e :: smergeAux f rest

def smerge : List SEntry → List SEntry
  | [] => []
  | e :: rest => smergeAux e rest

theorem noFields_mk_not_fresh (i : Nat) (p : WgPeer) (as : List WgAllowedIP) :
    noFields (mkSEntry i p false as) :=
  ⟨rfl, rfl, rfl, rfl⟩

theorem smergeAux_head_src (l : List SEntry) :
    ∀ e : SEntry, ∃ a t, smergeAux e l = a :: t ∧ a.src = e.src := by
  induction l with
  | nil => intro e; exact ⟨e, [], rfl, rfl⟩
  | cons f rest ih =>
    intro e
    rw [smergeAux]
    by_cases h : e.src = f.src
    · rw [if_pos h]
      obtain ⟨a, t, ha, hs⟩ := ih { e with aips := e.aips ++ f.aips }
      exact ⟨a, t, ha, hs⟩
    · rw [if_neg h]
      exact ⟨e, smergeAux f rest, rfl, rfl⟩

/-- `smergeAux e l` is `e` merged into the head run of `smerge l`. -/
theorem smergeAux_smerge (l : List SEntry) :
    ∀ e : SEntry,
      smergeAux e l =
        (match smerge l with
         | [] => [e]
         | f :: t =>
           if e.src = f.src then { e with aips := e.aips ++ f.aips } :: t else e :: f :: t) := by
  induction l with
  | nil => intro e; rfl
  | cons f rest ih =>
    intro e
    have hS : smerge (f :: rest) = smergeAux f rest := rfl
    rw [smergeAux, hS, ih f]
    by_cases h : e.src = f.src
    · rw [if_pos h, ih { e with aips := e.aips ++ f.aips }]
      cases hr : smerge rest with
      | nil => simp [h, List.append_assoc]
      | cons g t =>
        by_cases hg : f.src = g.src
        · simp [h, hg, h.trans hg, List.append_assoc]
        · have hug : ¬ e.src = g.src := fun hc => hg (h.symm.trans hc)
          simp [h, hg, hug]
    · rw [if_neg h]
      cases hr : smerge rest with
      | nil => simp [h]
      | cons g t =>
        by_cases hg : f.src = g.src
        · have hug : ¬ e.src = g.src := fun hc => h (hc.trans hg.symm)
          simp [h, hg, hug]
        · simp [h, hg]

theorem buildAips_glue (cap : Nat) :
    ∀ (as : List WgAllowedIP) (used : Nat),
      (buildAips cap as used).1 ++ ((buildAips cap as used).2.1.getD []) = as := by
  intro as
  induction as with
  | nil => intro used; rfl
  | cons a rest ih =>
    intro used
    rw [buildAips]
    split
    · rfl
    · simp only [List.cons_append]
      rw [ih (used + aipCost a)]


theorem buildPeers_seal (cap : Nat) (p : WgPeer) (rest : List WgPeer) (i : Nat)
    (r : Option (List WgAllowedIP)) (used : Nat)
    (h : cap < used + peerBaseCost p r.isNone) :
    buildPeers cap (p :: rest) i r used = ([], some (p :: rest, i, r)) := by
  rw [buildPeers]
  simp only []
  rw [if_pos h]

theorem buildPeers_noaips (cap : Nat) (p : WgPeer) (rest : List WgPeer) (i : Nat)
    (r : Option (List WgAllowedIP)) (used : Nat)
    (h1 : ¬ cap < used + peerBaseCost p r.isNone) (h2 : r.getD p.allowedips = []) :
    buildPeers cap (p :: rest) i r used =
      (mkSEntry i p r.isNone [] ::
         (buildPeers cap rest (i + 1) none (used + peerBaseCost p r.isNone)).1,
       (buildPeers cap rest (i + 1) none (used + peerBaseCost p r.isNone)).2) := by
  rw [buildPeers]
  simp only []
  rw [if_neg h1, if_pos h2]

theorem buildPeers_nestfail (cap : Nat) (p : WgPeer) (rest : List WgPeer) (i : Nat)
    (r : Option (List WgAllowedIP)) (used : Nat)
    (h1 : ¬ cap < used + peerBaseCost p r.isNone) (h2 : ¬ r.getD p.allowedips = [])
    (h3 : cap < used + peerBaseCost p r.isNone + 4) :
    buildPeers cap (p :: rest) i r used =
      ([mkSEntry i p r.isNone []], some (p :: rest, i, some (r.getD p.allowedips))) := by
  rw [buildPeers]
  simp only []
  rw [if_neg h1, if_neg h2, if_pos h3]

theorem buildPeers_aips_seal (cap : Nat) (p : WgPeer) (rest : List WgPeer) (i : Nat)
    (r : Option (List WgAllowedIP)) (used : Nat) (rem : List WgAllowedIP)
    (h1 : ¬ cap < used + peerBaseCost p r.isNone) (h2 : ¬ r.getD p.allowedips = [])
    (h3 : ¬ cap < used + peerBaseCost p r.isNone + 4)
    (h4 : (buildAips cap (r.getD p.allowedips) (used + peerBaseCost p r.isNone + 4)).2.1
            = some rem) :
    buildPeers cap (p :: rest) i r used =
      ([mkSEntry i p r.isNone
          (buildAips cap (r.getD p.allowedips) (used + peerBaseCost p r.isNone + 4)).1],
       some (p :: rest, i, some rem)) := by
  rw [buildPeers]
  simp only []
  rw [if_neg h1, if_neg h2, if_neg h3, h4]

theorem buildPeers_aips_full (cap : Nat) (p : WgPeer) (rest : List WgPeer) (i : Nat)
    (r : Option (List WgAllowedIP)) (used : Nat)
    (h1 : ¬ cap < used + peerBaseCost p r.isNone) (h2 : ¬ r.getD p.allowedips = [])
    (h3 : ¬ cap < used + peerBaseCost p r.isNone + 4)
    (h4 : (buildAips cap (r.getD p.allowedips) (used + peerBaseCost p r.isNone + 4)).2.1
            = none) :
    buildPeers cap (p :: rest) i r used =
      (mkSEntry i p r.isNone
          (buildAips cap (r.getD p.allowedips) (used + peerBaseCost p r.isNone + 4)).1 ::
         (buildPeers cap rest (i + 1) none
            (buildAips cap (r.getD p.allowedips) (used + peerBaseCost p r.isNone + 4)).2.2).1,
       (buildPeers cap rest (i + 1) none
          (buildAips cap (r.getD p.allowedips) (used + peerBaseCost p r.isNone + 4)).2.2).2) := by
  rw [buildPeers]
  simp only []
  rw [if_neg h1, if_neg h2, if_neg h3, h4]

theorem canonFrom_head_src (i : Nat) (r : Option (List WgAllowedIP)) (ps : List WgPeer) :
    ∀ a t, canonFrom i r ps = a :: t → a.src = i := by
  cases ps with
  | nil => intro a t h; exact List.noConfusion h
  | cons p rest =>
    intro a t h
    rw [canonFrom] at h
    injection h with h1 _
    rw [← h1]
    rfl

theorem smerge_cons_lt (e : SEntry) (l : List SEntry)
    (h : ∀ a t, smerge l = a :: t → e.src < a.src) :
    smerge (e :: l) = e :: smerge l := by
  have := smergeAux_smerge l e
  rw [show smerge (e :: l) = smergeAux e l from rfl, this]
  cases hl : smerge l with
  | nil => rfl
  | cons a t =>
    simp only []
    rw [if_neg (fun hc => absurd (hc ▸ h a t hl) (lt_irrefl _))]

theorem smerge_cons_merge (e : SEntry) (l : List SEntry) (f : SEntry) (t : List SEntry)
    (hl : smerge l = f :: t) (h : e.src = f.src) :
    smerge (e :: l) = { e with aips := e.aips ++ f.aips } :: t := by
  have := smergeAux_smerge l e
  rw [show smerge (e :: l) = smergeAux e l from rfl, this, hl]
  simp only []
  rw [if_pos h]

theorem mkSEntry_set_aips (i : Nat) (p : WgPeer) (fr : Bool)
    (a0 a1 : List WgAllowedIP) :
    { mkSEntry i p fr a0 with aips := a1 } = mkSEntry i p fr a1 := rfl

set_option maxHeartbeats 2000000 in
/-- Correctness of one message's peer loop: if the resume state is `none`
the entries are the whole canonical remainder; otherwise gluing any
continuation whose merge is the canonical list from the resume state yields
the canonical list from the input state.  Entries also respect the head,
source-bound, and adjacency disciplines. -/
theorem buildPeers_spec (cap : Nat) :
    ∀ (ps : List WgPeer) (i : Nat) (r : Option (List WgAllowedIP)) (used : Nat),
      ((buildPeers cap ps i r used).2 = none →
        (buildPeers cap ps i r used).1 = canonFrom i r ps) ∧
      (∀ ps' i' r', (buildPeers cap ps i r used).2 = some (ps', i', r') →
        (∀ X : List SEntry, smerge X = canonFrom i' r' ps' →
          smerge ((buildPeers cap ps i r used).1 ++ X) = canonFrom i r ps) ∧
        i ≤ i' ∧
        (∀ e ∈ (buildPeers cap ps i r used).1, e.src ≤ i' ∧ (e.src = i' → r' ≠ none))) ∧
      (∀ e, ((buildPeers cap ps i r used).1).head? = some e →
        e.src = i ∧ (r ≠ none → noFields e)) ∧
      ((buildPeers cap ps i r used).1).Chain' entryStep := by
  intro ps
  induction ps with
  | nil =>
    intro i r used
    refine ⟨fun _ => rfl, fun ps' i' r' hc => Option.noConfusion hc,
      fun e he => Option.noConfusion he, List.chain'_nil⟩
  | cons p rest ih =>
    intro i r used
    by_cases h1 : cap < used + peerBaseCost p r.isNone
    · rw [buildPeers_seal cap p rest i r used h1]
      refine ⟨fun hc => Option.noConfusion hc, ?_, fun e he => Option.noConfusion he,
        List.chain'_nil⟩
      intro ps' i' r' hc
      injection hc with hc
      injection hc with hps hc
      injection hc with hi hr
      subst hps; subst hi; subst hr
      refine ⟨?_, le_refl i, fun e he => absurd he (by simp)⟩
      intro X hX
      rw [List.nil_append]
      exact hX
    · have hmkhead : ∀ (as : List WgAllowedIP) (e : SEntry),
          (mkSEntry i p r.isNone as :: ([] : List SEntry)).head? = some e →
          e.src = i ∧ (r ≠ none → noFields e) := by
        intro as e he
        injection he with he
        subst he
        refine ⟨rfl, ?_⟩
        intro hrn
        cases r with
        | none => exact absurd rfl hrn
        | some v => exact noFields_mk_not_fresh i p as
      by_cases h2 : r.getD p.allowedips = []
      · rw [buildPeers_noaips cap p rest i r used h1 h2]
        obtain ⟨ih1, ih2, ih3, ih4⟩ := ih (i + 1) none (used + peerBaseCost p r.isNone)
        have hcanon : canonFrom i r (p :: rest)
            = mkSEntry i p r.isNone [] :: canonFrom (i + 1) none rest := by
          rw [canonFrom, h2]
        refine ⟨?_, ?_, ?_, ?_⟩
        · intro hc
          rw [ih1 hc, hcanon]
        · intro ps' i' r' hc
          obtain ⟨cps, hle, hsrc⟩ := ih2 ps' i' r' hc
          refine ⟨?_, by omega, ?_⟩
          · intro X hX
            rw [List.cons_append, hcanon]
            have hrec := cps X hX
            rw [smerge_cons_lt _ _ (fun a t hat => by
              rw [hrec] at hat
              have has := canonFrom_head_src (i + 1) none rest a t hat
              show i < a.src
              omega), hrec]
          · intro e he
            rcases List.mem_cons.mp he with he | he
            · subst he
              refine ⟨?_, ?_⟩
              · show i ≤ i'
                omega
              · intro hc2
                rw [show (mkSEntry i p r.isNone _).src = i from rfl] at hc2
                exfalso
                omega
            · exact hsrc e he
        · intro e he
          injection he with he
          subst he
          refine ⟨rfl, ?_⟩
          intro hrn
          cases r with
          | none => exact absurd rfl hrn
          | some v => exact noFields_mk_not_fresh i p []
        · rw [List.chain'_cons']
          refine ⟨?_, ih4⟩
          intro y hy
          have hysrc := (ih3 y hy).1
          refine ⟨?_, ?_⟩
          · show i ≤ y.src
            omega
          · intro hc2
            rw [show (mkSEntry i p r.isNone _).src = i from rfl] at hc2
            exfalso
            omega
      · by_cases h3 : cap < used + peerBaseCost p r.isNone + 4
        · rw [buildPeers_nestfail cap p rest i r used h1 h2 h3]
          refine ⟨fun hc => Option.noConfusion hc, ?_, hmkhead [], List.chain'_singleton _⟩
          intro ps' i' r' hc
          injection hc with hc
          injection hc with hps hc
          injection hc with hi hr
          subst hps; subst hi; subst hr
          refine ⟨?_, le_refl i, ?_⟩
          · intro X hX
            have hcan' : canonFrom i (some (r.getD p.allowedips)) (p :: rest)
                = mkSEntry i p false (r.getD p.allowedips) :: canonFrom (i + 1) none rest := by
              rw [canonFrom]
              rfl
            rw [hcan'] at hX
            rw [List.singleton_append,
              smerge_cons_merge (mkSEntry i p r.isNone []) X _ _ hX rfl]
            rfl
          · intro e he
            rcases List.mem_cons.mp he with he | he
            · subst he
              exact ⟨le_refl i, fun _ hc2 => Option.noConfusion hc2⟩
            · exact absurd he (by simp)
        · cases h4 : (buildAips cap (r.getD p.allowedips)
              (used + peerBaseCost p r.isNone + 4)).2.1 with
          | some rem =>
            rw [buildPeers_aips_seal cap p rest i r used rem h1 h2 h3 h4]
            have hglue : (buildAips cap (r.getD p.allowedips)
                (used + peerBaseCost p r.isNone + 4)).1 ++ rem = r.getD p.allowedips := by
              have := buildAips_glue cap (r.getD p.allowedips)
                (used + peerBaseCost p r.isNone + 4)
              rw [h4] at this
              exact this
            refine ⟨fun hc => Option.noConfusion hc, ?_, hmkhead _, List.chain'_singleton _⟩
            intro ps' i' r' hc
            injection hc with hc
            injection hc with hps hc
            injection hc with hi hr
            subst hps; subst hi; subst hr
            refine ⟨?_, le_refl i, ?_⟩
            · intro X hX
              have hcan' : canonFrom i (some rem) (p :: rest)
                  = mkSEntry i p false rem :: canonFrom (i + 1) none rest := by
                rw [canonFrom]
                rfl
              rw [hcan'] at hX
              rw [List.singleton_append,
                smerge_cons_merge (mkSEntry i p r.isNone
                  ((buildAips cap (r.getD p.allowedips)
                    (used + peerBaseCost p r.isNone + 4)).1)) X _ _ hX rfl]
              show mkSEntry i p r.isNone
                  ((buildAips cap (r.getD p.allowedips)
                    (used + peerBaseCost p r.isNone + 4)).1 ++ rem) ::
                canonFrom (i + 1) none rest = canonFrom i r (p :: rest)
              rw [hglue, canonFrom]
            · intro e he
              rcases List.mem_cons.mp he with he | he
              · subst he
                exact ⟨le_refl i, fun _ hc2 => Option.noConfusion hc2⟩
              · exact absurd he (by simp)
          | none =>
            rw [buildPeers_aips_full cap p rest i r used h1 h2 h3 h4]
            have hglue : (buildAips cap (r.getD p.allowedips)
                (used + peerBaseCost p r.isNone + 4)).1 = r.getD p.allowedips := by
              have := buildAips_glue cap (r.getD p.allowedips)
                (used + peerBaseCost p r.isNone + 4)
              rw [h4] at this
              simpa using this
            obtain ⟨ih1, ih2, ih3, ih4⟩ := ih (i + 1) none
              (buildAips cap (r.getD p.allowedips)
                (used + peerBaseCost p r.isNone + 4)).2.2
            have hcanon : canonFrom i r (p :: rest)
                = mkSEntry i p r.isNone
                    ((buildAips cap (r.getD p.allowedips)
                      (used + peerBaseCost p r.isNone + 4)).1) ::
                  canonFrom (i + 1) none rest := by
              rw [canonFrom, hglue]
            refine ⟨?_, ?_, ?_, ?_⟩
            · intro hc
              rw [ih1 hc, hcanon]
            · intro ps' i' r' hc
              obtain ⟨cps, hle, hsrc⟩ := ih2 ps' i' r' hc
              refine ⟨?_, by omega, ?_⟩
              · intro X hX
                rw [List.cons_append, hcanon]
                have hrec := cps X hX
                rw [smerge_cons_lt _ _ (fun a t hat => by
                  rw [hrec] at hat
                  have has := canonFrom_head_src (i + 1) none rest a t hat
                  show i < a.src
                  omega), hrec]
              · intro e he
                rcases List.mem_cons.mp he with he | he
                · subst he
                  refine ⟨?_, ?_⟩
                  · show i ≤ i'
                    omega
                  · intro hc2
                    rw [show (mkSEntry i p r.isNone _).src = i from rfl] at hc2
                    exfalso
                    omega
                · exact hsrc e he
            · intro e he
              injection he with he
              subst he
              refine ⟨rfl, ?_⟩
              intro hrn
              cases r with
              | none => exact absurd rfl hrn
              | some v => exact noFields_mk_not_fresh i p _
            · rw [List.chain'_cons']
              refine ⟨?_, ih4⟩
              intro y hy
              have hysrc := (ih3 y hy).1
              refine ⟨?_, ?_⟩
              · show i ≤ y.src
                omega
              · intro hc2
                rw [show (mkSEntry i p r.isNone _).src = i from rfl] at hc2
                exfalso
                omega


/-- A message places no entries only when its very first peer did not fit at
all, leaving the resume state unchanged (or when there were no peers). -/
theorem buildPeers_empty (cap : Nat) :
    ∀ (ps : List WgPeer) (i : Nat) (r : Option (List WgAllowedIP)) (used : Nat),
      (buildPeers cap ps i r used).1 = [] →
      ((buildPeers cap ps i r used).2 = none ∧ ps = []) ∨
        (buildPeers cap ps i r used).2 = some (ps, i, r) := by
  intro ps i r used
  cases ps with
  | nil => exact fun _ => Or.inl ⟨rfl, rfl⟩
  | cons p rest =>
    by_cases h1 : cap < used + peerBaseCost p r.isNone
    · rw [buildPeers_seal cap p rest i r used h1]
      exact fun _ => Or.inr rfl
    · by_cases h2 : r.getD p.allowedips = []
      · rw [buildPeers_noaips cap p rest i r used h1 h2]
        exact fun hc => List.noConfusion hc
      · by_cases h3 : cap < used + peerBaseCost p r.isNone + 4
        · rw [buildPeers_nestfail cap p rest i r used h1 h2 h3]
          exact fun hc => List.noConfusion hc
        · cases h4 : (buildAips cap (r.getD p.allowedips)
              (used + peerBaseCost p r.isNone + 4)).2.1 with
          | some rem =>
            rw [buildPeers_aips_seal cap p rest i r used rem h1 h2 h3 h4]
            exact fun hc => List.noConfusion hc
          | none =>
            rw [buildPeers_aips_full cap p rest i r used h1 h2 h3 h4]
            exact fun hc => List.noConfusion hc

theorem smerge_canonFrom : ∀ (ps : List WgPeer) (i : Nat) (r : Option (List WgAllowedIP)),
    smerge (canonFrom i r ps) = canonFrom i r ps := by
  intro ps
  induction ps with
  | nil => intro i r; rfl
  | cons p rest ih =>
    intro i r
    rw [canonFrom]
    rw [smerge_cons_lt _ _ (fun a t hat => by
      rw [ih (i + 1) none] at hat
      have has := canonFrom_head_src (i + 1) none rest a t hat
      show i < a.src
      omega)]
    rw [ih (i + 1) none]

theorem buildMsg_nil (cap : Nat) (d : WgDevice) (i : Nat)
    (r : Option (List WgAllowedIP)) (first : Bool) :
    buildMsg cap d [] i r first =
      ({ devAttrs := if first then some (devAttrsOf d) else none, entries := [] },
       none) := rfl

theorem buildMsg_cons (cap : Nat) (d : WgDevice) (q : WgPeer) (qs : List WgPeer)
    (i : Nat) (r : Option (List WgAllowedIP)) (first : Bool) :
    buildMsg cap d (q :: qs) i r first =
      ({ devAttrs := if first then some (devAttrsOf d) else none,
         entries := (buildPeers cap (q :: qs) i r
           (headerCost d + (if first then devAttrsCost d else 0) + 4)).1 },
       (buildPeers cap (q :: qs) i r
         (headerCost d + (if first then devAttrsCost d else 0) + 4)).2) := rfl

set_option maxHeartbeats 2000000 in
/-- Correctness of the whole `again` loop, relative to a resume state. -/
theorem buildLoop_spec (cap : Nat) (d : WgDevice) :
    ∀ (fuel : Nat) (ps : List WgPeer) (i : Nat) (r : Option (List WgAllowedIP))
      (first : Bool) (msgs : List SMsg),
      buildLoop cap d fuel ps i r first = some msgs →
      smerge (msgs.flatMap (fun m => m.entries)) = canonFrom i r ps ∧
      (msgs.flatMap (fun m => m.entries)).Chain' entryStep ∧
      (∀ e, (msgs.flatMap (fun m => m.entries)).head? = some e →
        e.src = i ∧ (r ≠ none → noFields e)) ∧
      (∀ m', msgs.head? = some m' →
        m'.devAttrs = (if first then some (devAttrsOf d) else none)) ∧
      (∀ m' ∈ msgs.tail, m'.devAttrs = none) := by
  intro fuel
  induction fuel with
  | zero => intro ps i r first msgs h; exact Option.noConfusion h
  | succ fuel ih =>
    intro ps i r first msgs h
    rw [buildLoop] at h
    cases ps with
    | nil =>
      rw [buildMsg_nil] at h
      simp only [] at h
      injection h with h
      subst h
      refine ⟨rfl, List.chain'_nil, fun e he => Option.noConfusion he, ?_, ?_⟩
      · intro m' hm'
        injection hm' with hm'
        subst hm'
        rfl
      · intro m' hm'
        exact absurd hm' (by simp)
    | cons q qs =>
      rw [buildMsg_cons] at h
      simp only [] at h
      obtain ⟨bp1, bp2, bp3, bp4⟩ := buildPeers_spec cap (q :: qs) i r
        (headerCost d + (if first then devAttrsCost d else 0) + 4)
      cases hc : (buildPeers cap (q :: qs) i r
          (headerCost d + (if first then devAttrsCost d else 0) + 4)).2 with
      | none =>
        rw [hc] at h
        injection h with h
        subst h
        have hes := bp1 hc
        refine ⟨?_, ?_, ?_, ?_, ?_⟩
        · simp only [List.flatMap_cons, List.flatMap_nil, List.append_nil]
          rw [hes, smerge_canonFrom]
        · simp only [List.flatMap_cons, List.flatMap_nil, List.append_nil]
          exact bp4
        · intro e he
          simp only [List.flatMap_cons, List.flatMap_nil, List.append_nil] at he
          exact bp3 e he
        · intro m' hm'
          injection hm' with hm'
          subst hm'
          rfl
        · intro m' hm'
          exact absurd hm' (by simp)
      | some st =>
        rw [hc] at h
        simp only [] at h
        cases hrec : buildLoop cap d fuel st.1 st.2.1 st.2.2 false with
        | none => rw [hrec] at h; exact Option.noConfusion h
        | some ms =>
          rw [hrec] at h
          simp only [Option.map] at h
          injection h with h
          subst h
          obtain ⟨ihA, ihB, ihC, ihD, ihE⟩ := ih st.1 st.2.1 st.2.2 false ms hrec
          have hst : (buildPeers cap (q :: qs) i r
              (headerCost d + (if first then devAttrsCost d else 0) + 4)).2
              = some (st.1, st.2.1, st.2.2) := by rw [hc]
          obtain ⟨cps, hle, hsrc⟩ := bp2 st.1 st.2.1 st.2.2 hst
          refine ⟨?_, ?_, ?_, ?_, ?_⟩
          · simp only [List.flatMap_cons]
            exact cps _ ihA
          · simp only [List.flatMap_cons]
            refine List.Chain'.append bp4 ihB ?_
            intro x hx y hy
            have hxm : x ∈ (buildPeers cap (q :: qs) i r
                (headerCost d + (if first then devAttrsCost d else 0) + 4)).1 :=
              List.mem_of_mem_getLast? hx
            have hxs := hsrc x hxm
            have hys := ihC y hy
            exact ⟨by rw [hys.1]; exact hxs.1, fun hxy => hys.2 (hxs.2 (hxy.trans hys.1))⟩
          · intro e he
            simp only [List.flatMap_cons] at he
            cases hentries : (buildPeers cap (q :: qs) i r
                (headerCost d + (if first then devAttrsCost d else 0) + 4)).1 with
            | nil =>
              rw [hentries, List.nil_append] at he
              rcases buildPeers_empty cap (q :: qs) i r _ hentries with ⟨_, hqs⟩ | hsame
              · exact List.noConfusion hqs
              · rw [hc] at hsame
                injection hsame with hsame
                have h1 : st.1 = q :: qs := congrArg (fun z => z.1) hsame
                have h2 : st.2.1 = i := congrArg (fun z => z.2.1) hsame
                have h3 : st.2.2 = r := congrArg (fun z => z.2.2) hsame
                have := ihC e he
                rw [h2, h3] at this
                exact this
            | cons e0 t0 =>
              rw [hentries] at he
              rw [List.cons_append] at he
              injection he with he
              subst he
              have := bp3 e0 (by rw [hentries]; rfl)
              exact this
          · intro m' hm'
            injection hm' with hm'
            subst hm'
            rfl
          · intro m' hm'
            simp only [List.tail_cons] at hm'
            cases ms with
            | nil => exact absurd hm' (by simp)
            | cons m2 ms2 =>
              rcases List.mem_cons.mp hm' with hm' | hm'
              · rw [hm']
                have := ihD m2 rfl
                simpa using this
              · exact ihE m' hm'


/-- C2: for every run of the SET chunker that terminates (any number of
messages, one or more), coalescing adjacent same-source entries of the
concatenated messages reconstructs exactly one full entry per input peer,
in the original order, each carrying that peer's complete allowed-ip
sequence in order — so every peer and every allowed-ip is sent exactly
once; the source indices never decrease across the sequence and an entry
continuing its predecessor's peer carries none of the one-shot fields
(preshared key, endpoint, keepalive, replace-allowed-ips flag); and the
device-level attributes are present in the first message only. -/
theorem C2_set_chunking_reconstructs (cap fuel : Nat) (d : WgDevice) (msgs : List SMsg)
    (h : kernel_set_device_messages cap d fuel = some msgs) :
    smerge (msgs.flatMap (fun m => m.entries)) = canonFrom 0 none d.peers ∧
    (msgs.flatMap (fun m => m.entries)).Chain' entryStep ∧
    (∀ m', msgs.head? = some m' → m'.devAttrs = some (devAttrsOf d)) ∧
    (∀ m' ∈ msgs.tail, m'.devAttrs = none) := by
  obtain ⟨h1, h2, h3, h4, h5⟩ := buildLoop_spec cap d fuel d.peers 0 none true msgs h
  exact ⟨h1, h2, fun m' hm' => by simpa using h4 m' hm', h5⟩


/-- A device whose serialization exceeds a 150-byte buffer: peer 0 carries a
preshared key, the replace-allowed-ips flag and two allowed-ips, peer 1 one
allowed-ip. -/
def c2Dev : WgDevice :=
  { name := "wg0".toList,
    flags := { hasListenPort := true },
    listen_port := 51820,
    peers := [
      { public_key := List.replicate 32 1,
        preshared_key := List.replicate 32 9,
        flags := { hasPublicKey := true, hasPresharedKey := true, replaceAllowedIPs := true },
        allowedips := [{ family := 2, ip4 := [10, 0, 0, 1], cidr := 32 },
                       { family := 2, ip4 := [10, 0, 0, 2], cidr := 32 }] },
      { public_key := List.replicate 32 2,
        flags := { hasPublicKey := true },
        allowedips := [{ family := 2, ip4 := [10, 0, 1, 1], cidr := 24 }] }] }

def c2Msgs : List SMsg := (kernel_set_device_messages 150 c2Dev 8).getD []

/-- C2 witness: the theorem applied to `c2Dev` with a 150-byte buffer — the
SET splits into three messages (peer 0's one-shot fields in the first, its
allowed-ips continued in the second without them, peer 1 in the third) and
coalescing reconstructs the device exactly. -/
theorem C2_witness :
    c2Msgs.length = 3 ∧
    smerge (c2Msgs.flatMap (fun m => m.entries)) = canonFrom 0 none c2Dev.peers ∧
    (c2Msgs.flatMap (fun m => m.entries)).Chain' entryStep :=
  ⟨by decide,
   (C2_set_chunking_reconstructs 150 8 c2Dev c2Msgs (by decide)).1,
   (C2_set_chunking_reconstructs 150 8 c2Dev c2Msgs (by decide)).2.1⟩


end WgIpc
